import Mathlib

/-!
Verification of the tool-call resolution loop of `src/app.py` (AniTracker
custom MCP chat client).

The Python module is embedded shallowly:

* the JSON values a tool may return, together with the `json.dumps` encoding
  used at the `ToolMessage` construction site and the `json.loads` decoding of
  that text, are modelled by `JsonValue`, `json.dumps` and `json.loads`
  (Python `json` with its default options: separators `", "` and `": "`,
  `ensure_ascii=True`);
* the conversation history, the cached resources and the per-turn handler of
  the Streamlit script are modelled by `Message`, `AppState`, `execToolCalls`
  and `handleTurn`; Python exceptions are modelled with explicit error
  components, and an aborted turn keeps every list append that happened
  before the exception, exactly as `st.session_state` does across a rerun.
-/

namespace AniTracker

/-- A Python float: an IEEE 754 binary64 value.  A finite value denotes
`(-1)^sign * mantissa * 2^exponent`; the canonical doubles have
`2^52 ≤ mantissa < 2^53` and `-1074 ≤ exponent ≤ 971` (normal),
`mantissa < 2^52` with `exponent = -1074` (subnormal), or `mantissa = 0`
with `exponent = 0` (the two signed zeros). -/
inductive PyFloat where
  | finite (sign : Bool) (mantissa : Nat) (exponent : Int)
  | inf
  | neginf
  | nan
deriving DecidableEq

/-- Python `==` on floats: numeric comparison — the two zeros are equal,
each infinity equals itself, finite values compare by the value they
denote, and `nan` is unequal to every float, itself included. -/
def PyFloat.pyEq : PyFloat → PyFloat → Bool
  | .finite s1 m1 e1, .finite s2 m2 e2 =>
    if m1 = 0 ∧ m2 = 0 then true
    else if s1 = s2 then
      if e1 ≤ e2 then m1 = m2 * 2 ^ (e2 - e1).toNat
      else m1 * 2 ^ (e1 - e2).toNat = m2
    else false
  | .inf, .inf => true
  | .neginf, .neginf => true
  | _, _ => false

/-- A canonical binary64 significand–exponent pair: zero is stored as
`(0, 0)`, a normal value has a 53-bit significand with its leading bit
set, and a subnormal one sits at the minimum exponent `-1074`.  Every
value a Python float can hold other than the infinities and `nan` has
exactly one such representation. -/
def canonicalDouble (m : Nat) (e : Int) : Bool :=
  if m = 0 then decide (e = 0)
  else decide (m < 2 ^ 53) && decide (-1074 ≤ e) && decide (e ≤ 971) &&
    (decide (2 ^ 52 ≤ m) || decide (e = -1074))

/-- Floats whose rendering reads back as an equal value: the two
infinities (exact constants) and every canonically represented finite
value (shortest-repr digits read back to the same double).  Only `nan` is
excluded — it re-reads as a `nan`, but `nan == nan` is false. -/
def PyFloat.lossless : PyFloat → Bool
  | .inf => true
  | .neginf => true
  | .nan => false
  | .finite _ m e => canonicalDouble m e

/-- A JSON-serializable tool result: strings, numbers (Python `int` and
`float`), booleans, null, arrays and string-keyed mappings.  This is the
value domain of `json.dumps(result)` at src/app.py line 121. -/
inductive JsonValue where
  | str (s : String)
  | num (n : Int)
  | flt (f : PyFloat)
  | bool (b : Bool)
  | null
  | arr (elems : List JsonValue)
  | obj (members : List (String × JsonValue))

namespace json

/-- Decimal digits of `n`, most significant first (the digits of Python
`str(n)` for a nonnegative `n`). -/
def natToChars (n : Nat) : List Char :=
  if h : n < 10 then [Char.ofNat (48 + n)]
  else natToChars (n / 10) ++ [Char.ofNat (48 + n % 10)]
termination_by n
decreasing_by exact Nat.div_lt_self (by omega) (by omega)

/-- Round `num / den` (`den ≥ 1`) to the nearest integer, ties to the even
neighbour — the IEEE round-to-nearest-even rule at integer granularity. -/
def roundHalfEven (num den : Nat) : Nat :=
  let q := num / den
  let r := num % den
  if 2 * r < den then q
  else if den < 2 * r then q + 1
  else if q % 2 = 0 then q else q + 1

/-- Whether `2^t ≤ num/den`. -/
def pow2Le (t : Int) (num den : Nat) : Bool :=
  if 0 ≤ t then den * 2 ^ t.toNat ≤ num else den ≤ num * 2 ^ (-t).toNat

/-- `⌊log₂(num/den)⌋` for positive `num` and `den`. -/
def floorLog2 (num den : Nat) : Int :=
  let t : Int := (Nat.log 2 num : Int) - (Nat.log 2 den : Int)
  if pow2Le t num den then t else t - 1

/-- Whether `10^t ≤ num/den`. -/
def pow10Le (t : Int) (num den : Nat) : Bool :=
  if 0 ≤ t then den * 10 ^ t.toNat ≤ num else den ≤ num * 10 ^ (-t).toNat

/-- The decimal exponent `E` with `10^(E-1) ≤ num/den < 10^E`, for positive
`num` and `den`. -/
def decExp (num den : Nat) : Int :=
  let t : Int := (Nat.log 10 num : Int) - (Nat.log 10 den : Int)
  (if pow10Le t num den then t else t - 1) + 1

/-- The canonical binary64 mantissa and exponent nearest the positive
rational `num/den` (round-to-nearest, ties-to-even), `none` when the value
rounds beyond the largest finite double. -/
def ratToDouble (num den : Nat) : Option (Nat × Int) :=
  let e2 := floorLog2 num den
  if 1024 ≤ e2 then none
  else
    let e : Int := max (e2 - 52) (-1074)
    let m := if 0 ≤ e then roundHalfEven num (den * 2 ^ e.toNat)
             else roundHalfEven (num * 2 ^ (-e).toNat) den
    if m = 2 ^ 53 then
      if 971 < e + 1 then none else some (2 ^ 52, e + 1)
    else if m = 0 then some (0, 0)
    else some (m, e)

/-- Python `float()` of the decimal `±D·10^k` (what `json.loads` applies to
a number token with a fraction or an exponent): the correctly rounded
binary64, overflowing to the infinities and underflowing to a signed
zero. -/
def decToDouble (sign : Bool) (D : Nat) (k : Int) : PyFloat :=
  if D = 0 then .finite sign 0 0
  else
    let nd : Nat × Nat :=
      if 0 ≤ k then (D * 10 ^ k.toNat, 1) else (D, 10 ^ (-k).toNat)
    match ratToDouble nd.1 nd.2 with
    | some (m, e) => .finite sign m e
    | none => if sign then .neginf else .inf

/-- Factor the powers of ten out of a number: `stripZeros D = (D₀, t)` with
`D = D₀ · 10^t` and `D₀` not a multiple of ten (or `D₀ = D = 0`). -/
def stripZeros (D : Nat) : Nat × Nat :=
  if h : D = 0 ∨ D % 10 ≠ 0 then (D, 0)
  else
    let p := stripZeros (D / 10)
    (p.1, p.2 + 1)
termination_by D
decreasing_by
  simp only [not_or, not_not] at h
  exact Nat.div_lt_self (by omega) (by omega)

/-- The exact decimal expansion of `m·2^e` as digit value, digit count and
decimal exponent. -/
def exactDigits (m : Nat) (e : Int) : Nat × Nat × Int :=
  let Dk : Nat × Int :=
    if 0 ≤ e then (m * 2 ^ e.toNat, 0) else (m * 5 ^ (-e).toNat, e)
  let p := stripZeros Dk.1
  let n := (natToChars p.1).length
  (p.1, n, Dk.2 + p.2 + n)

/-- The `n`-significant-digit decimal nearest `m·2^e` (ties to even): the
digit value together with the decimal exponent of the input. -/
def nearestDec (m : Nat) (e : Int) (n : Nat) : Nat × Int :=
  let nd : Nat × Nat :=
    if 0 ≤ e then (m * 2 ^ e.toNat, 1) else (m, 2 ^ (-e).toNat)
  let E := decExp nd.1 nd.2
  let s : Int := (n : Int) - E
  (if 0 ≤ s then roundHalfEven (nd.1 * 10 ^ s.toNat) nd.2
   else roundHalfEven nd.1 (nd.2 * 10 ^ (-s).toNat), E)

/-- One candidate for the shortest-repr search: `n` significant digits,
with a run of nines that rounded up across a decade collapsed to the single
digit `1` of the next decade. -/
def shortCandidate (m : Nat) (e : Int) (n : Nat) : Nat × Nat × Int :=
  let dE := nearestDec m e n
  if dE.1 = 10 ^ n then (1, 1, dE.2 + 1) else (dE.1, n, dE.2)

/-- Whether the candidate decimal `d·10^(E-n)` reads back — as `float()`
reads it — to exactly the double `(m, e)`. -/
def candOk (m : Nat) (e : Int) (d : Nat) (n : Nat) (E : Int) : Bool :=
  decide (decToDouble false d (E - n) = PyFloat.finite false m e)

/-- The digits CPython `dtoa` (mode 0, used by `float.__repr__`) produces
for the positive double `m·2^e`: the fewest significant digits whose
correctly rounded read-back is exactly the input, nearest candidate first;
seventeen digits always suffice, with the exact decimal expansion — which
trivially reads back — as a defensive fallback. -/
def shortestDigits (m : Nat) (e : Int) : Nat × Nat × Int :=
  match (List.range 17).findSome? (fun i =>
    let c := shortCandidate m e (i + 1)
    if candOk m e c.1 c.2.1 c.2.2 then some c else none) with
  | some c => c
  | none => exactDigits m e

/-- An exponent digit run padded on the left to at least two digits, as
CPython pads the exponent of a scientific-form `repr`. -/
def padTwo (l : List Char) : List Char :=
  if l.length < 2 then '0' :: l else l

/-- CPython shortest-`repr` formatting (`format_float_short`, type `r`,
with `.0` appended to integral fixed forms): digit value `d` with `n`
digits and decimal point position `E` is rendered in fixed-point form for
`-4 < E ≤ 16` and in scientific form, with a signed exponent of two or
more digits, otherwise. -/
def formatShort (d : Nat) (n : Nat) (E : Int) : List Char :=
  let digits := natToChars d
  if E ≤ -4 ∨ 16 < E then
    let mant : List Char :=
      if digits.length ≤ 1 then digits
      else digits.take 1 ++ '.' :: digits.drop 1
    mant ++ 'e' :: (if E - 1 < 0 then '-' else '+') ::
      padTwo (natToChars (E - 1).natAbs)
  else if E ≤ 0 then
    '0' :: '.' :: (List.replicate (-E).toNat '0' ++ digits)
  else if (n : Int) ≤ E then
    digits ++ List.replicate (E - n).toNat '0' ++ ['.', '0']
  else
    digits.take E.toNat ++ '.' :: digits.drop E.toNat

/-- How Python renders a float where `json.dumps` serializes one
(`floatstr` in `json/encoder.py`): the non-finite values become the
JavaScript-style constants `NaN`, `Infinity` and `-Infinity` (the default
`allow_nan=True`), and a finite value is rendered by `float.__repr__` —
the shortest decimal string that reads back to the same double. -/
def floatStr : PyFloat → List Char
  | .nan => ['N', 'a', 'N']
  | .inf => ['I', 'n', 'f', 'i', 'n', 'i', 't', 'y']
  | .neginf => ['-', 'I', 'n', 'f', 'i', 'n', 'i', 't', 'y']
  | .finite s m e =>
    if m = 0 then (if s then ['-', '0', '.', '0'] else ['0', '.', '0'])
    else
      let c := shortestDigits m e
      (if s then ['-'] else []) ++ formatShort c.1 c.2.1 c.2.2

/-- Lowercase hexadecimal digit for `n < 16`. -/
def toHexDigit (n : Nat) : Char :=
  Char.ofNat (if n < 10 then 48 + n else 87 + n)

/-- Four lowercase hex digits of `n % 65536`, most significant first (the
`\uXXXX` payload emitted by Python `json.dumps` under `ensure_ascii`). -/
def hex4 (n : Nat) : List Char :=
  [toHexDigit (n / 4096 % 16), toHexDigit (n / 256 % 16),
   toHexDigit (n / 16 % 16), toHexDigit (n % 16)]

/-- How Python `json.dumps` (default `ensure_ascii=True`) renders one
character of a string: the two-character short escapes, `\uXXXX` for other
control or non-ASCII characters (a surrogate pair above `U+FFFF`), and the
character itself otherwise. -/
def escapeChar (c : Char) : List Char :=
  if c = '"' then ['\\', '"']
  else if c = '\\' then ['\\', '\\']
  else if c = '\n' then ['\\', 'n']
  else if c = '\t' then ['\\', 't']
  else if c = '\r' then ['\\', 'r']
  else if c = '\x08' then ['\\', 'b']
  else if c = '\x0c' then ['\\', 'f']
  else if c.toNat < 32 ∨ 127 ≤ c.toNat then
    if c.toNat < 65536 then '\\' :: 'u' :: hex4 c.toNat
    else
      '\\' :: 'u' :: hex4 (55296 + (c.toNat - 65536) / 1024) ++
        '\\' :: 'u' :: hex4 (56320 + (c.toNat - 65536) % 1024)
  else [c]

/-- Rendering of a whole string body (without the enclosing quotes). -/
def escString (cs : List Char) : List Char :=
  (cs.map escapeChar).flatten

mutual

/-- The text of Python `json.dumps(v)` with default options (item separator
`", "`, key separator `": "`), as a character list. -/
def dumpsChars : JsonValue → List Char
  | .str s => '"' :: escString s.data ++ ['"']
  | .num n => if n < 0 then '-' :: natToChars n.natAbs else natToChars n.natAbs
  | .flt f => floatStr f
  | .bool true => ['t', 'r', 'u', 'e']
  | .bool false => ['f', 'a', 'l', 's', 'e']
  | .null => ['n', 'u', 'l', 'l']
  | .arr elems => '[' :: dumpsElems elems ++ [']']
  | .obj members => '{' :: dumpsMembers members ++ ['}']

/-- Array elements joined by `", "`. -/
def dumpsElems : List JsonValue → List Char
  | [] => []
  | [v] => dumpsChars v
  | v :: vs => dumpsChars v ++ ',' :: ' ' :: dumpsElems vs

/-- Object members, each `"key": value`, joined by `", "`. -/
def dumpsMembers : List (String × JsonValue) → List Char
  | [] => []
  | [(k, v)] => '"' :: escString k.data ++ '"' :: ':' :: ' ' :: dumpsChars v
  | (k, v) :: ms =>
      '"' :: escString k.data ++ '"' :: ':' :: ' ' :: dumpsChars v ++
        ',' :: ' ' :: dumpsMembers ms

end

/-- Python `json.dumps` with default options, restricted to the modelled
value domain. -/
def dumps (v : JsonValue) : String :=
  ⟨dumpsChars v⟩

/-- JSON insignificant whitespace. -/
def isWs (c : Char) : Bool :=
  c = ' ' ∨ c = '\t' ∨ c = '\n' ∨ c = '\r'

/-- Drop insignificant whitespace. -/
def skipWs (l : List Char) : List Char :=
  l.dropWhile isWs

/-- Numeric value of a run of decimal digits, most significant first. -/
def digitsVal (ds : List Char) : Nat :=
  ds.foldl (fun a c => 10 * a + (c.toNat - 48)) 0

/-- Parse a nonempty run of decimal digits. -/
def parseNat (l : List Char) : Option (Nat × List Char) :=
  let ds := l.takeWhile Char.isDigit
  if ds.isEmpty then none else some (digitsVal ds, l.drop ds.length)

/-- Value of one hexadecimal digit. -/
def hexVal (c : Char) : Option Nat :=
  if 48 ≤ c.toNat ∧ c.toNat ≤ 57 then some (c.toNat - 48)
  else if 97 ≤ c.toNat ∧ c.toNat ≤ 102 then some (c.toNat - 87)
  else if 65 ≤ c.toNat ∧ c.toNat ≤ 70 then some (c.toNat - 55)
  else none

/-- Value of a `\uXXXX` payload. -/
def hex4Val (a b c d : Char) : Option Nat :=
  match hexVal a, hexVal b, hexVal c, hexVal d with
  | some x, some y, some z, some w => some (((x * 16 + y) * 16 + z) * 16 + w)
  | _, _, _, _ => none

/-- Prepend a decoded character to a string-body parse result. -/
def consChar (c : Char) :
    Option (List Char × List Char) → Option (List Char × List Char)
  | some (s, r) => some (c :: s, r)
  | none => none

/-- Read four hex digits and return their value with the remaining input. -/
def parseU4 : List Char → Option (Nat × List Char)
  | a :: b :: c :: d :: r =>
    (match hex4Val a b c d with
     | some h => some (h, r)
     | none => none)
  | _ => none

/-- Decode the payload of a `\u` escape: a basic-plane code unit stands for
itself, a high surrogate must be completed by a second `\uXXXX` low
surrogate, and the pair decodes to one character above `U+FFFF`. -/
def parseUEscape (r : List Char) : Option (Char × List Char) :=
  match parseU4 r with
  | none => none
  | some (h, r2) =>
    if h < 55296 ∨ 57343 < h then some (Char.ofNat h, r2)
    else if h < 56320 then
      match r2 with
      | s1 :: s2 :: r3 =>
        if s1 = '\\' ∧ s2 = 'u' then
          match parseU4 r3 with
          | some (low, r4) =>
            if 56320 ≤ low ∧ low < 57344 then
              some (Char.ofNat (65536 + (h - 55296) * 1024 + (low - 56320)), r4)
            else none
          | none => none
        else none
      | _ => none
    else none

/-- Decode one escape sequence after a backslash: the decoded character and
the remaining input. -/
def parseEscapeChar : List Char → Option (Char × List Char)
  | [] => none
  | e :: r =>
    if e = '"' then some ('"', r)
    else if e = '\\' then some ('\\', r)
    else if e = '/' then some ('/', r)
    else if e = 'b' then some ('\x08', r)
    else if e = 'f' then some ('\x0c', r)
    else if e = 'n' then some ('\n', r)
    else if e = 'r' then some ('\r', r)
    else if e = 't' then some ('\t', r)
    else if e = 'u' then parseUEscape r
    else none

/-- Parse the body of a JSON string after the opening quote, returning the
decoded characters and the input after the closing quote (the string part of
Python `json.loads`, strict mode: raw control characters are rejected).
Fuel-indexed; each decoded character consumes one unit. -/
def parseStringBody : Nat → List Char → Option (List Char × List Char)
  | 0, _ => none
  | fuel + 1, l =>
    match l with
    | [] => none
    | c :: rest =>
      if c = '"' then some ([], rest)
      else if c = '\\' then
        match parseEscapeChar rest with
        | some (d, r2) => consChar d (parseStringBody fuel r2)
        | none => none
      else if c.toNat < 32 then none
      else consChar c (parseStringBody fuel rest)

/-- Match the seven characters `nfinity` — the tail of an `Infinity` or
`-Infinity` constant of the `json.loads` scanner. -/
def infinityTail (l : List Char) : Option (List Char) :=
  match l with
  | k1 :: k2 :: k3 :: k4 :: k5 :: k6 :: k7 :: r =>
    if k1 = 'n' ∧ k2 = 'f' ∧ k3 = 'i' ∧ k4 = 'n' ∧ k5 = 'i' ∧ k6 = 't' ∧
        k7 = 'y' then some r
    else none
  | _ => none

/-- After the integer part of a number token, CPython's `NUMBER_RE` reads
an optional fraction (a point and at least one digit) and an optional
exponent (`e` or `E`, an optional sign, at least one digit).  A token with
either part is handed to `parse_float` — Python `float`, here
`decToDouble` — and a bare integer part stays an `int`. -/
def parseNumberTail (sign : Bool) (ip : Nat) (l : List Char) :
    JsonValue × List Char :=
  let fr : List Char × List Char :=
    match l with
    | c :: r =>
      if c = '.' then
        (let ds := r.takeWhile Char.isDigit
         if ds.isEmpty then ([], l) else (ds, r.drop ds.length))
      else ([], l)
    | [] => ([], l)
  let ex : Option Int × List Char :=
    match fr.2 with
    | c :: r =>
      if c = 'e' ∨ c = 'E' then
        match r with
        | c2 :: r2 =>
          if c2 = '+' then
            (let ds := r2.takeWhile Char.isDigit
             if ds.isEmpty then (none, fr.2)
             else (some ((digitsVal ds : Int)), r2.drop ds.length))
          else if c2 = '-' then
            (let ds := r2.takeWhile Char.isDigit
             if ds.isEmpty then (none, fr.2)
             else (some (-(digitsVal ds : Int)), r2.drop ds.length))
          else
            (let ds := r.takeWhile Char.isDigit
             if ds.isEmpty then (none, fr.2)
             else (some ((digitsVal ds : Int)), r.drop ds.length))
        | [] => (none, fr.2)
      else (none, fr.2)
    | [] => (none, fr.2)
  if fr.1.isEmpty ∧ ex.1.isNone then
    (.num (if sign then -(ip : Int) else (ip : Int)), ex.2)
  else
    (.flt (decToDouble sign (ip * 10 ^ fr.1.length + digitsVal fr.1)
      ((ex.1.getD 0) - (fr.1.length : Int))), ex.2)

mutual

/-- Parse one JSON value (the Python `json.loads` grammar over the
modelled value domain), fuel-indexed to bound the recursion. -/
def parseValue : Nat → List Char → Option (JsonValue × List Char)
  | 0, _ => none
  | fuel + 1, l =>
    match skipWs l with
    | [] => none
    | c :: rest =>
      if c = '"' then
        match parseStringBody (rest.length + 1) rest with
        | some (s, r) => some (.str ⟨s⟩, r)
        | none => none
      else if c = '[' then
        match skipWs rest with
        | [] => none
        | c2 :: r2 =>
          if c2 = ']' then some (.arr [], r2)
          else
            match parseElems fuel rest with
            | some (vs, r) => some (.arr vs, r)
            | none => none
      else if c = '{' then
        match skipWs rest with
        | [] => none
        | c2 :: r2 =>
          if c2 = '}' then some (.obj [], r2)
          else
            match parseMembers fuel rest with
            | some (ms, r) => some (.obj ms, r)
            | none => none
      else if c = '-' then
        match rest with
        | [] => none
        | d :: r2 =>
          if d = 'I' then
            match infinityTail r2 with
            | some r => some (.flt .neginf, r)
            | none => none
          else
            match parseNat rest with
            | some (n, r) => some (parseNumberTail true n r)
            | none => none
      else if c.isDigit then
        match parseNat (c :: rest) with
        | some (n, r) => some (parseNumberTail false n r)
        | none => none
      else if c = 't' then
        match rest with
        | k1 :: k2 :: k3 :: r =>
          if k1 = 'r' ∧ k2 = 'u' ∧ k3 = 'e' then some (.bool true, r) else none
        | _ => none
      else if c = 'f' then
        match rest with
        | k1 :: k2 :: k3 :: k4 :: r =>
          if k1 = 'a' ∧ k2 = 'l' ∧ k3 = 's' ∧ k4 = 'e' then some (.bool false, r)
          else none
        | _ => none
      else if c = 'n' then
        match rest with
        | k1 :: k2 :: k3 :: r =>
          if k1 = 'u' ∧ k2 = 'l' ∧ k3 = 'l' then some (.null, r) else none
        | _ => none
      else if c = 'N' then
        match rest with
        | k1 :: k2 :: r =>
          if k1 = 'a' ∧ k2 = 'N' then some (.flt .nan, r) else none
        | _ => none
      else if c = 'I' then
        match infinityTail rest with
        | some r => some (.flt .inf, r)
        | none => none
      else none

/-- Parse a nonempty comma-separated element list and the closing `]`. -/
def parseElems : Nat → List Char → Option (List JsonValue × List Char)
  | 0, _ => none
  | fuel + 1, l =>
    match parseValue fuel l with
    | none => none
    | some (v, r) =>
      match skipWs r with
      | [] => none
      | c :: r2 =>
        if c = ',' then
          match parseElems fuel r2 with
          | some (vs, r3) => some (v :: vs, r3)
          | none => none
        else if c = ']' then some ([v], r2)
        else none

/-- Parse a nonempty member list `"key": value, ...` and the closing brace. -/
def parseMembers : Nat → List Char → Option (List (String × JsonValue) × List Char)
  | 0, _ => none
  | fuel + 1, l =>
    match skipWs l with
    | [] => none
    | c :: rest =>
      if c = '"' then
        match parseStringBody (rest.length + 1) rest with
        | none => none
        | some (k, r) =>
          match skipWs r with
          | [] => none
          | c2 :: r2 =>
            if c2 = ':' then
              match parseValue fuel r2 with
              | none => none
              | some (v, r3) =>
                match skipWs r3 with
                | [] => none
                | c3 :: r4 =>
                  if c3 = ',' then
                    match parseMembers fuel r4 with
                    | some (ms, r5) => some ((⟨k⟩, v) :: ms, r5)
                    | none => none
                  else if c3 = '}' then some ([(⟨k⟩, v)], r4)
                  else none
            else none
      else none

end

/-- Python `json.loads`, restricted to the modelled value domain: parse one
value, allow trailing whitespace, reject any other trailing text. -/
def loads (s : String) : Option JsonValue :=
  match parseValue (2 * s.data.length + 1) s.data with
  | some (v, rest) => if (skipWs rest).isEmpty then some v else none
  | none => none

/-- Characters are Unicode scalar values: below the surrogate range or
between it and `0x110000`. -/
theorem char_valid_ranges (c : Char) :
    c.toNat < 55296 ∨ (57343 < c.toNat ∧ c.toNat < 1114112) := by
  have h := c.valid
  simp only [isValidChar] at h
  rcases h with h | ⟨h1, h2⟩
  · exact Or.inl h
  · exact Or.inr ⟨h1, h2⟩

/-- `Char.ofNat` followed by `Char.toNat` is the identity on valid scalar
values. -/
theorem toNat_ofNat {n : Nat} (h : n.isValidChar) : (Char.ofNat n).toNat = n := by
  simp only [Char.ofNat, h, dif_pos, Char.ofNatAux, Char.toNat]
  rfl

/-- A digit character compares as expected through `Char.isDigit`. -/
theorem isDigit_iff (c : Char) :
    c.isDigit = true ↔ 48 ≤ c.toNat ∧ c.toNat ≤ 57 := by
  simp only [Char.isDigit, Bool.and_eq_true, decide_eq_true_eq]
  exact Iff.rfl

/-- The decimal rendering of a natural number consists of digits. -/
theorem natToChars_digits (n : Nat) : ∀ c ∈ natToChars n, c.isDigit = true := by
  induction n using Nat.strong_induction_on with
  | _ n ih =>
    rw [natToChars]
    split
    · intro c hc
      simp only [List.mem_singleton] at hc
      subst hc
      rw [isDigit_iff, toNat_ofNat (Or.inl (by omega))]
      omega
    · intro c hc
      rcases List.mem_append.mp hc with h | h
      · exact ih (n / 10) (Nat.div_lt_self (by omega) (by omega)) c h
      · simp only [List.mem_singleton] at h
        subst h
        rw [isDigit_iff, toNat_ofNat (Or.inl (by omega))]
        have := Nat.mod_lt n (show 0 < 10 by omega)
        omega

/-- The decimal rendering is never empty. -/
theorem natToChars_ne_nil (n : Nat) : natToChars n ≠ [] := by
  rw [natToChars]
  split
  · simp
  · simp

/-- Reading the rendered digits back yields the original number. -/
theorem digitsVal_natToChars (n : Nat) : digitsVal (natToChars n) = n := by
  have key : ∀ m, ∀ a : Nat,
      (natToChars m).foldl (fun a c => 10 * a + (c.toNat - 48)) a =
        a * 10 ^ (natToChars m).length + m := by
    intro m
    induction m using Nat.strong_induction_on with
    | _ m ih =>
      intro a
      rw [natToChars]
      split
      · simp only [List.foldl_cons, List.foldl_nil, List.length_singleton]
        rw [toNat_ofNat (Or.inl (by omega))]
        omega
      · rw [List.foldl_append, ih (m / 10) (Nat.div_lt_self (by omega) (by omega)) a]
        simp only [List.foldl_cons, List.foldl_nil, List.length_append,
          List.length_singleton]
        rw [toNat_ofNat (Or.inl (by omega))]
        have hm := Nat.mod_lt m (show 0 < 10 by omega)
        have hd : 10 * (m / 10) + m % 10 = m := Nat.div_add_mod m 10
        rw [pow_succ]
        ring_nf
        omega
  have h := key n 0
  simp only [Nat.zero_mul, Nat.zero_add] at h
  exact h

/-- `true` when the input cannot extend a preceding number token: it does
not begin with a decimal digit, a decimal point, or an exponent letter. -/
def noLeadDigit : List Char → Bool
  | [] => true
  | c :: _ => !(c.isDigit || c = '.' || c = 'e' || c = 'E')

/-- Components of the number-token boundary condition. -/
theorem noLeadDigit_parts {c : Char} {t : List Char}
    (h : noLeadDigit (c :: t) = true) :
    c.isDigit = false ∧ c ≠ '.' ∧ c ≠ 'e' ∧ c ≠ 'E' := by
  simp only [noLeadDigit, Bool.not_eq_true', Bool.or_eq_false_iff,
    decide_eq_false_iff_not] at h
  exact ⟨h.1.1.1, h.1.1.2, h.1.2, h.2⟩

/-- `takeWhile isDigit` splits `digits ++ rest` exactly at the boundary. -/
theorem takeWhile_digits (l rest : List Char) (hl : ∀ c ∈ l, c.isDigit = true)
    (hrest : noLeadDigit rest = true) :
    (l ++ rest).takeWhile Char.isDigit = l := by
  induction l with
  | nil =>
    cases rest with
    | nil => rfl
    | cons c t =>
      have hd := (noLeadDigit_parts hrest).1
      simp [List.takeWhile_cons, hd]
  | cons c t ih =>
    have hc := hl c (by simp)
    have ht := ih fun d hd => hl d (by simp [hd])
    simp [List.takeWhile_cons, hc, ht]

/-- Parsing the decimal rendering of `n` returns `n` and the untouched
remainder. -/
theorem parseNat_natToChars (n : Nat) (rest : List Char)
    (hrest : noLeadDigit rest = true) :
    parseNat (natToChars n ++ rest) = some (n, rest) := by
  have htw := takeWhile_digits _ _ (natToChars_digits n) hrest
  have hne : (natToChars n).isEmpty = false := by
    cases h : natToChars n with
    | nil => exact absurd h (natToChars_ne_nil n)
    | cons a t => rfl
  simp only [parseNat, htw, hne, Bool.false_eq_true, if_false,
    digitsVal_natToChars, List.drop_left]

/-- At a number-token boundary the tail reader finds neither fraction nor
exponent, and the token stays an integer. -/
theorem parseNumberTail_int (sign : Bool) (ip : Nat) (rest : List Char)
    (hrest : noLeadDigit rest = true) :
    parseNumberTail sign ip rest =
      (.num (if sign then -(ip : Int) else (ip : Int)), rest) := by
  cases rest with
  | nil => rfl
  | cons c t =>
    obtain ⟨_, h1, h2, h3⟩ := noLeadDigit_parts hrest
    simp [parseNumberTail, h1, h2, h3]

/-- The digit accumulator threads through the fold as a power of ten. -/
theorem digitsVal_aux (l : List Char) (acc : Nat) :
    l.foldl (fun a c => 10 * a + (c.toNat - 48)) acc =
      acc * 10 ^ l.length + digitsVal l := by
  induction l generalizing acc with
  | nil => simp [digitsVal]
  | cons c t ih =>
    simp only [digitsVal, List.foldl_cons, List.length_cons]
    rw [ih (10 * acc + (c.toNat - 48)), ih (10 * 0 + (c.toNat - 48))]
    ring

/-- Digit values compose over concatenation positionally. -/
theorem digitsVal_append (a b : List Char) :
    digitsVal (a ++ b) = digitsVal a * 10 ^ b.length + digitsVal b := by
  have h := digitsVal_aux b (digitsVal a)
  simpa [digitsVal, List.foldl_append] using h

/-- Leading zero characters do not change a digit value. -/
theorem digitsVal_replicate_zero (t : Nat) (ds : List Char) :
    digitsVal (List.replicate t '0' ++ ds) = digitsVal ds := by
  rw [digitsVal_append]
  have h0 : digitsVal (List.replicate t '0') = 0 := by
    induction t with
    | zero => rfl
    | succ k ih =>
      have hz : (10 * 0 + ('0'.toNat - 48)) = 0 := by decide
      simp only [digitsVal, List.replicate_succ, List.foldl_cons, hz]
      simpa only [digitsVal] using ih
  rw [h0]
  simp

/-- The decimal rendering of `n` has at most as many digits as bound `n`. -/
theorem natToChars_lt_pow (n : Nat) : n < 10 ^ (natToChars n).length := by
  induction n using Nat.strong_induction_on with
  | _ n ih =>
    rw [natToChars]
    split
    · next h => simpa using h
    · next h =>
      push_neg at h
      have ihh := ih (n / 10) (Nat.div_lt_self (by omega) (by omega))
      simp only [List.length_append, List.length_singleton]
      have hmod := Nat.mod_lt n (show 0 < 10 by omega)
      have hdm := Nat.div_add_mod n 10
      rw [pow_succ]
      omega

/-- The decimal rendering of a positive `n` has enough digits to reach `n`. -/
theorem pow_le_natToChars (n : Nat) (hn : 0 < n) :
    10 ^ ((natToChars n).length - 1) ≤ n := by
  induction n using Nat.strong_induction_on with
  | _ n ih =>
    rw [natToChars]
    split
    · next h => simpa using hn
    · next h =>
      push_neg at h
      have hpos : 0 < n / 10 := Nat.div_pos (by omega) (by omega)
      have ihh := ih (n / 10) (Nat.div_lt_self (by omega) (by omega)) hpos
      simp only [List.length_append, List.length_singleton]
      have hlen : 1 ≤ (natToChars (n / 10)).length := by
        cases hc : natToChars (n / 10) with
        | nil => exact absurd hc (natToChars_ne_nil _)
        | cons a t => simp
      have heq : (natToChars (n / 10)).length + 1 - 1 =
          ((natToChars (n / 10)).length - 1) + 1 := by omega
      rw [heq, pow_succ]
      have hdm := Nat.div_add_mod n 10
      have hmul := Nat.mul_le_mul_right 10 ihh
      omega

/-- A number between consecutive powers of ten renders with exactly that
many digits. -/
theorem natToChars_length_eq (d n : Nat) (hn : 1 ≤ n)
    (h1 : 10 ^ (n - 1) ≤ d) (h2 : d < 10 ^ n) :
    (natToChars d).length = n := by
  have hd : 0 < d := lt_of_lt_of_le (by positivity) h1
  have hb1 := natToChars_lt_pow d
  have hb2 := pow_le_natToChars d hd
  have hL : 1 ≤ (natToChars d).length := by
    cases hc : natToChars d with
    | nil => exact absurd hc (natToChars_ne_nil _)
    | cons a t => simp
  have k1 : n - 1 < (natToChars d).length := by
    by_contra hcon
    push_neg at hcon
    have := Nat.pow_le_pow_right (show 1 ≤ 10 by omega) hcon
    omega
  have k2 : (natToChars d).length - 1 < n := by
    by_contra hcon
    push_neg at hcon
    have := Nat.pow_le_pow_right (show 1 ≤ 10 by omega) hcon
    omega
  omega

/-- `true` when the input does not begin with a decimal digit. -/
def headNotDigit : List Char → Bool
  | [] => true
  | c :: _ => !c.isDigit

/-- `takeWhile isDigit` splits `digits ++ rest` at a non-digit boundary. -/
theorem takeWhile_digits_general (l rest : List Char)
    (hl : ∀ c ∈ l, c.isDigit = true) (hrest : headNotDigit rest = true) :
    (l ++ rest).takeWhile Char.isDigit = l := by
  induction l with
  | nil =>
    cases rest with
    | nil => rfl
    | cons c t =>
      simp only [headNotDigit, Bool.not_eq_true'] at hrest
      simp [List.takeWhile_cons, hrest]
  | cons c t ih =>
    have hc := hl c (by simp)
    have ht := ih fun d hd => hl d (by simp [hd])
    simp [List.takeWhile_cons, hc, ht]

/-- Parsing a decimal rendering before a non-digit boundary. -/
theorem parseNat_natToChars_general (n : Nat) (rest : List Char)
    (hrest : headNotDigit rest = true) :
    parseNat (natToChars n ++ rest) = some (n, rest) := by
  have htw := takeWhile_digits_general _ _ (natToChars_digits n) hrest
  have hne : (natToChars n).isEmpty = false := by
    cases h : natToChars n with
    | nil => exact absurd h (natToChars_ne_nil n)
    | cons a t => rfl
  simp only [parseNat, htw, hne, Bool.false_eq_true, if_false,
    digitsVal_natToChars, List.drop_left]

/-- Rounding an exact quotient is exact. -/
theorem roundHalfEven_exact (num den : Nat) (hd : 0 < den) (h : den ∣ num) :
    roundHalfEven num den = num / den := by
  obtain ⟨c, rfl⟩ := h
  simp only [roundHalfEven, Nat.mul_mod_right, Nat.mul_div_cancel_left _ hd]
  rw [if_pos (by omega : 2 * 0 < den)]

/-- Round-to-nearest never drops below an integer lower bound. -/
theorem le_roundHalfEven (num den A : Nat) (hd : 0 < den)
    (h : A * den ≤ num) :
    A ≤ roundHalfEven num den := by
  simp only [roundHalfEven]
  have hq : A ≤ num / den := (Nat.le_div_iff_mul_le hd).mpr h
  split_ifs <;> omega

/-- Round-to-nearest stays at or below `B` when the value is under
`B + 1/2`. -/
theorem roundHalfEven_le (num den B : Nat) (hd : 0 < den)
    (h : 2 * num < (2 * B + 1) * den) :
    roundHalfEven num den ≤ B := by
  have hdm := Nat.div_add_mod num den
  have hr := Nat.mod_lt num hd
  have hq : num / den ≤ B := by
    by_contra hcon
    push_neg at hcon
    have h1 : (B + 1) * den ≤ (num / den) * den := Nat.mul_le_mul_right den hcon
    have h2 : den * (num / den) ≤ num := by omega
    nlinarith
  simp only [roundHalfEven]
  split_ifs with h1 h2 h3
  · exact hq
  · by_contra hcon
    push_neg at hcon
    have hqB : num / den = B := by omega
    rw [hqB] at hdm
    nlinarith
  · exact hq
  · by_contra hcon
    push_neg at hcon
    have hqB : num / den = B := by omega
    rw [hqB] at hdm
    nlinarith

/-- Rounding is invariant under scaling numerator and denominator. -/
theorem roundHalfEven_scale (num den c : Nat) (hc : 0 < c) :
    roundHalfEven (num * c) (den * c) = roundHalfEven num den := by
  simp only [roundHalfEven, Nat.mul_div_mul_right _ _ hc, Nat.mul_mod_mul_right]
  have h2 : (2 * (num % den * c) < den * c) ↔ (2 * (num % den) < den) := by
    rw [show 2 * (num % den * c) = (2 * (num % den)) * c by ring]
    exact Nat.mul_lt_mul_right hc
  have h3 : (den * c < 2 * (num % den * c)) ↔ (den < 2 * (num % den)) := by
    rw [show 2 * (num % den * c) = (2 * (num % den)) * c by ring]
    exact Nat.mul_lt_mul_right hc
  by_cases hb1 : 2 * (num % den) < den
  · rw [if_pos (h2.mpr hb1), if_pos hb1]
  · rw [if_neg (fun hh => hb1 (h2.mp hh)), if_neg hb1]
    by_cases hb2 : den < 2 * (num % den)
    · rw [if_pos (h3.mpr hb2), if_pos hb2]
    · rw [if_neg (fun hh => hb2 (h3.mp hh)), if_neg hb2]

/-- The integer-exponent comparison `pow2Le` read in the rationals. -/
theorem pow2Le_iff (t : Int) (num den : Nat) :
    pow2Le t num den = true ↔ (2 : ℚ) ^ t * den ≤ num := by
  unfold pow2Le
  by_cases ht : 0 ≤ t
  · rw [if_pos ht, decide_eq_true_eq]
    rw [show ((2:ℚ))^t = ((2 ^ t.toNat : ℕ) : ℚ) by
      push_cast
      rw [← zpow_natCast]
      congr 1
      omega]
    rw [show ((2 ^ t.toNat : ℕ) : ℚ) * (den : ℚ) =
        ((den * 2 ^ t.toNat : ℕ) : ℚ) by push_cast; ring]
    rw [Nat.cast_le]
  · rw [if_neg ht, decide_eq_true_eq]
    push_neg at ht
    have hinv : ((2:ℚ))^t * ((2 ^ (-t).toNat : ℕ) : ℚ) = 1 := by
      push_cast
      rw [← zpow_natCast]
      rw [show (((-t).toNat : ℕ) : ℤ) = -t by omega]
      rw [← zpow_add₀ (by norm_num : (2:ℚ) ≠ 0)]
      simp
    have hpowpos : (0:ℚ) < ((2 ^ (-t).toNat : ℕ) : ℚ) := by positivity
    constructor
    · intro h
      have hc : (den : ℚ) ≤ (num : ℚ) * ((2 ^ (-t).toNat : ℕ) : ℚ) := by
        exact_mod_cast h
      have hzp : (0:ℚ) < (2:ℚ)^t := by positivity
      have := mul_le_mul_of_nonneg_left hc (le_of_lt hzp)
      calc (2:ℚ)^t * den ≤ (2:ℚ)^t * ((num : ℚ) * ((2 ^ (-t).toNat : ℕ) : ℚ)) :=
            this
        _ = ((2:ℚ)^t * ((2 ^ (-t).toNat : ℕ) : ℚ)) * num := by ring
        _ = num := by rw [hinv]; ring
    · intro h
      have := mul_le_mul_of_nonneg_left h (le_of_lt hpowpos)
      have hres : (den : ℚ) ≤ (num : ℚ) * ((2 ^ (-t).toNat : ℕ) : ℚ) := by
        calc (den : ℚ) = ((2 ^ (-t).toNat : ℕ) : ℚ) * ((2:ℚ)^t * den) := by
              rw [show ((2 ^ (-t).toNat : ℕ) : ℚ) * ((2:ℚ)^t * (den:ℚ)) =
                ((2:ℚ)^t * ((2 ^ (-t).toNat : ℕ) : ℚ)) * den by ring, hinv,
                one_mul]
        _ ≤ ((2 ^ (-t).toNat : ℕ) : ℚ) * num := this
        _ = (num : ℚ) * ((2 ^ (-t).toNat : ℕ) : ℚ) := by ring
      exact_mod_cast hres

/-- The integer-exponent comparison `pow10Le` read in the rationals. -/
theorem pow10Le_iff (t : Int) (num den : Nat) :
    pow10Le t num den = true ↔ (10 : ℚ) ^ t * den ≤ num := by
  unfold pow10Le
  by_cases ht : 0 ≤ t
  · rw [if_pos ht, decide_eq_true_eq]
    rw [show ((10:ℚ))^t = ((10 ^ t.toNat : ℕ) : ℚ) by
      push_cast
      rw [← zpow_natCast]
      congr 1
      omega]
    rw [show ((10 ^ t.toNat : ℕ) : ℚ) * (den : ℚ) =
        ((den * 10 ^ t.toNat : ℕ) : ℚ) by push_cast; ring]
    rw [Nat.cast_le]
  · rw [if_neg ht, decide_eq_true_eq]
    push_neg at ht
    have hinv : ((10:ℚ))^t * ((10 ^ (-t).toNat : ℕ) : ℚ) = 1 := by
      push_cast
      rw [← zpow_natCast]
      rw [show (((-t).toNat : ℕ) : ℤ) = -t by omega]
      rw [← zpow_add₀ (by norm_num : (10:ℚ) ≠ 0)]
      simp
    have hpowpos : (0:ℚ) < ((10 ^ (-t).toNat : ℕ) : ℚ) := by positivity
    constructor
    · intro h
      have hc : (den : ℚ) ≤ (num : ℚ) * ((10 ^ (-t).toNat : ℕ) : ℚ) := by
        exact_mod_cast h
      have hzp : (0:ℚ) < (10:ℚ)^t := by positivity
      have := mul_le_mul_of_nonneg_left hc (le_of_lt hzp)
      calc (10:ℚ)^t * den ≤
            (10:ℚ)^t * ((num : ℚ) * ((10 ^ (-t).toNat : ℕ) : ℚ)) := this
        _ = ((10:ℚ)^t * ((10 ^ (-t).toNat : ℕ) : ℚ)) * num := by ring
        _ = num := by rw [hinv]; ring
    · intro h
      have := mul_le_mul_of_nonneg_left h (le_of_lt hpowpos)
      have hres : (den : ℚ) ≤ (num : ℚ) * ((10 ^ (-t).toNat : ℕ) : ℚ) := by
        calc (den : ℚ) = ((10 ^ (-t).toNat : ℕ) : ℚ) * ((10:ℚ)^t * den) := by
              rw [show ((10 ^ (-t).toNat : ℕ) : ℚ) * ((10:ℚ)^t * (den:ℚ)) =
                ((10:ℚ)^t * ((10 ^ (-t).toNat : ℕ) : ℚ)) * den by ring, hinv,
                one_mul]
        _ ≤ ((10 ^ (-t).toNat : ℕ) : ℚ) * num := this
        _ = (num : ℚ) * ((10 ^ (-t).toNat : ℕ) : ℚ) := by ring
      exact_mod_cast hres

/-- The computed floor logarithm brackets the quotient between consecutive
powers of two. -/
theorem floorLog2_bracket (num den : Nat) (hn : 0 < num) (hd : 0 < den) :
    (2:ℚ) ^ (floorLog2 num den) * den ≤ num ∧
      (num : ℚ) < (2:ℚ) ^ (floorLog2 num den + 1) * den := by
  have h2 : (2:ℚ) ≠ 0 := by norm_num
  have pa : ((2:ℚ)) ^ ((Nat.log 2 num : ℤ)) ≤ (num : ℚ) := by
    rw [zpow_natCast]
    exact_mod_cast Nat.pow_log_le_self 2 (by omega)
  have pa' : (num : ℚ) < (2:ℚ) ^ ((Nat.log 2 num : ℤ) + 1) := by
    rw [show (Nat.log 2 num : ℤ) + 1 = ((Nat.log 2 num + 1 : ℕ) : ℤ) by
      push_cast; ring]
    rw [zpow_natCast]
    exact_mod_cast Nat.lt_pow_succ_log_self (by omega) num
  have pb : ((2:ℚ)) ^ ((Nat.log 2 den : ℤ)) ≤ (den : ℚ) := by
    rw [zpow_natCast]
    exact_mod_cast Nat.pow_log_le_self 2 (by omega)
  have pb' : (den : ℚ) < (2:ℚ) ^ ((Nat.log 2 den : ℤ) + 1) := by
    rw [show (Nat.log 2 den : ℤ) + 1 = ((Nat.log 2 den + 1 : ℕ) : ℤ) by
      push_cast; ring]
    rw [zpow_natCast]
    exact_mod_cast Nat.lt_pow_succ_log_self (by omega) den
  simp only [floorLog2]
  set t0 : ℤ := (Nat.log 2 num : ℤ) - (Nat.log 2 den : ℤ) with ht0
  have hupper : (num:ℚ) < (2:ℚ)^(t0+1) * den := by
    calc (num:ℚ) < (2:ℚ) ^ ((Nat.log 2 num : ℤ) + 1) := pa'
    _ = (2:ℚ)^(t0+1) * (2:ℚ)^((Nat.log 2 den : ℤ)) := by
        rw [← zpow_add₀ h2]
        congr 1
        omega
    _ ≤ (2:ℚ)^(t0+1) * den := by
        exact mul_le_mul_of_nonneg_left pb (by positivity)
  have hstep : (2:ℚ)^(t0-1) * (den:ℚ) <
      (2:ℚ)^(t0-1) * (2:ℚ)^((Nat.log 2 den : ℤ)+1) :=
    mul_lt_mul_of_pos_left pb' (by positivity)
  have hlower : (2:ℚ)^(t0-1) * den < num := by
    calc (2:ℚ)^(t0-1) * (den:ℚ) <
          (2:ℚ)^(t0-1) * (2:ℚ)^((Nat.log 2 den : ℤ)+1) := hstep
    _ = (2:ℚ) ^ ((Nat.log 2 num : ℤ)) := by
        rw [← zpow_add₀ h2]
        congr 1
        omega
    _ ≤ num := pa
  by_cases hc : pow2Le t0 num den = true
  · rw [if_pos hc]
    exact ⟨(pow2Le_iff t0 num den).mp hc, hupper⟩
  · rw [if_neg hc]
    have hlt : (num:ℚ) < (2:ℚ)^t0 * den := by
      by_contra hcon
      push_neg at hcon
      exact hc ((pow2Le_iff t0 num den).mpr hcon)
    refine ⟨le_of_lt hlower, ?_⟩
    rw [show t0 - 1 + 1 = t0 by ring]
    exact hlt

/-- The floor logarithm is determined by its bracket. -/
theorem floorLog2_eq_of_bracket (num den : Nat) (hn : 0 < num) (hd : 0 < den)
    (t : ℤ) (h1 : (2:ℚ)^t * den ≤ num) (h2 : (num:ℚ) < (2:ℚ)^(t+1) * den) :
    floorLog2 num den = t := by
  obtain ⟨b1, b2⟩ := floorLog2_bracket num den hn hd
  have hmono : ∀ x y : ℤ, x ≤ y → (2:ℚ)^x ≤ (2:ℚ)^y := fun x y h =>
    zpow_le_zpow_right₀ (by norm_num) h
  have hdpos : (0:ℚ) < den := by exact_mod_cast hd
  rcases lt_trichotomy (floorLog2 num den) t with h | h | h
  · exfalso
    have hle : floorLog2 num den + 1 ≤ t := by omega
    have := hmono _ _ hle
    have hchain : (num:ℚ) < (2:ℚ)^t * den := by
      calc (num:ℚ) < (2:ℚ)^(floorLog2 num den + 1) * den := b2
      _ ≤ (2:ℚ)^t * den := by
          exact mul_le_mul_of_nonneg_right this (by positivity)
    linarith
  · exact h
  · exfalso
    have hle : t + 1 ≤ floorLog2 num den := by omega
    have := hmono _ _ hle
    have hchain : (num:ℚ) < (2:ℚ)^(floorLog2 num den) * den := by
      calc (num:ℚ) < (2:ℚ)^(t+1) * den := h2
      _ ≤ (2:ℚ)^(floorLog2 num den) * den := by
          exact mul_le_mul_of_nonneg_right this (by positivity)
    linarith

/-- The computed decimal exponent brackets the quotient between consecutive
powers of ten. -/
theorem decExp_bracket (num den : Nat) (hn : 0 < num) (hd : 0 < den) :
    (10:ℚ) ^ (decExp num den - 1) * den ≤ num ∧
      (num : ℚ) < (10:ℚ) ^ (decExp num den) * den := by
  have h2 : (10:ℚ) ≠ 0 := by norm_num
  have pa : ((10:ℚ)) ^ ((Nat.log 10 num : ℤ)) ≤ (num : ℚ) := by
    rw [zpow_natCast]
    exact_mod_cast Nat.pow_log_le_self 10 (by omega)
  have pa' : (num : ℚ) < (10:ℚ) ^ ((Nat.log 10 num : ℤ) + 1) := by
    rw [show (Nat.log 10 num : ℤ) + 1 = ((Nat.log 10 num + 1 : ℕ) : ℤ) by
      push_cast; ring]
    rw [zpow_natCast]
    exact_mod_cast Nat.lt_pow_succ_log_self (by omega) num
  have pb : ((10:ℚ)) ^ ((Nat.log 10 den : ℤ)) ≤ (den : ℚ) := by
    rw [zpow_natCast]
    exact_mod_cast Nat.pow_log_le_self 10 (by omega)
  have pb' : (den : ℚ) < (10:ℚ) ^ ((Nat.log 10 den : ℤ) + 1) := by
    rw [show (Nat.log 10 den : ℤ) + 1 = ((Nat.log 10 den + 1 : ℕ) : ℤ) by
      push_cast; ring]
    rw [zpow_natCast]
    exact_mod_cast Nat.lt_pow_succ_log_self (by omega) den
  simp only [decExp]
  set t0 : ℤ := (Nat.log 10 num : ℤ) - (Nat.log 10 den : ℤ) with ht0
  have hupper : (num:ℚ) < (10:ℚ)^(t0+1) * den := by
    calc (num:ℚ) < (10:ℚ) ^ ((Nat.log 10 num : ℤ) + 1) := pa'
    _ = (10:ℚ)^(t0+1) * (10:ℚ)^((Nat.log 10 den : ℤ)) := by
        rw [← zpow_add₀ h2]
        congr 1
        omega
    _ ≤ (10:ℚ)^(t0+1) * den := by
        exact mul_le_mul_of_nonneg_left pb (by positivity)
  have hstep : (10:ℚ)^(t0-1) * (den:ℚ) <
      (10:ℚ)^(t0-1) * (10:ℚ)^((Nat.log 10 den : ℤ)+1) :=
    mul_lt_mul_of_pos_left pb' (by positivity)
  have hlower : (10:ℚ)^(t0-1) * den < num := by
    calc (10:ℚ)^(t0-1) * (den:ℚ) <
          (10:ℚ)^(t0-1) * (10:ℚ)^((Nat.log 10 den : ℤ)+1) := hstep
    _ = (10:ℚ) ^ ((Nat.log 10 num : ℤ)) := by
        rw [← zpow_add₀ h2]
        congr 1
        omega
    _ ≤ num := pa
  by_cases hc : pow10Le t0 num den = true
  · rw [if_pos hc]
    constructor
    · rw [show t0 + 1 - 1 = t0 by ring]
      exact (pow10Le_iff t0 num den).mp hc
    · exact hupper
  · rw [if_neg hc]
    have hlt : (num:ℚ) < (10:ℚ)^t0 * den := by
      by_contra hcon
      push_neg at hcon
      exact hc ((pow10Le_iff t0 num den).mpr hcon)
    constructor
    · rw [show t0 - 1 + 1 - 1 = t0 - 1 by ring]
      exact le_of_lt hlower
    · rw [show t0 - 1 + 1 = t0 by ring]
      exact hlt

/-- The decimal exponent is determined by its bracket. -/
theorem decExp_eq_of_bracket (num den : Nat) (hn : 0 < num) (hd : 0 < den)
    (E : ℤ) (h1 : (10:ℚ)^(E-1) * den ≤ num) (h2 : (num:ℚ) < (10:ℚ)^E * den) :
    decExp num den = E := by
  obtain ⟨b1, b2⟩ := decExp_bracket num den hn hd
  have hmono : ∀ x y : ℤ, x ≤ y → (10:ℚ)^x ≤ (10:ℚ)^y := fun x y h =>
    zpow_le_zpow_right₀ (by norm_num) h
  rcases lt_trichotomy (decExp num den) E with h | h | h
  · exfalso
    have hle : decExp num den ≤ E - 1 := by omega
    have := hmono _ _ hle
    have hchain : (num:ℚ) < (10:ℚ)^(E-1) * den := by
      calc (num:ℚ) < (10:ℚ)^(decExp num den) * den := b2
      _ ≤ (10:ℚ)^(E-1) * den := by
          exact mul_le_mul_of_nonneg_right this (by positivity)
    linarith
  · exact h
  · exfalso
    have hle : E ≤ decExp num den - 1 := by omega
    have := hmono _ _ hle
    have hchain : (num:ℚ) < (10:ℚ)^(decExp num den - 1) * den := by
      calc (num:ℚ) < (10:ℚ)^E * den := h2
      _ ≤ (10:ℚ)^(decExp num den - 1) * den := by
          exact mul_le_mul_of_nonneg_right this (by positivity)
    linarith

/-- Reading back the exact value of a canonical double is exact: the
rounding step lands on the double itself. -/
theorem ratToDouble_exact (m : Nat) (e : Int) (num den : Nat)
    (hm0 : 0 < m) (hm2 : m < 2 ^ 53)
    (hnorm : 2 ^ 52 ≤ m ∨ e = -1074)
    (he1 : -1074 ≤ e) (he2 : e ≤ 971) (hden : 0 < den)
    (hval : (num : ℚ) = (m : ℚ) * (2:ℚ) ^ e * (den : ℚ)) :
    ratToDouble num den = some (m, e) := by
  have h2q : (2:ℚ) ≠ 0 := by norm_num
  have hnum : 0 < num := by
    rcases Nat.eq_zero_or_pos num with h0 | h
    · exfalso
      rw [h0] at hval
      have hpos : (0:ℚ) < (m : ℚ) * (2:ℚ) ^ e * (den : ℚ) := by positivity
      simp only [Nat.cast_zero] at hval
      linarith
    · exact h
  set L : ℕ := Nat.log 2 m with hL
  have hbrL : 2 ^ L ≤ m := Nat.pow_log_le_self 2 (by omega)
  have hbrL' : m < 2 ^ (L + 1) := Nat.lt_pow_succ_log_self (by omega) m
  have hLle : L ≤ 52 := by
    have hlt : Nat.log 2 m < 53 := Nat.log_lt_of_lt_pow (by omega : m ≠ 0) hm2
    omega
  have hfl : floorLog2 num den = (L : ℤ) + e := by
    apply floorLog2_eq_of_bracket num den hnum hden
    · rw [hval, show (2:ℚ)^((L:ℤ)+e) = (2:ℚ)^(L:ℤ) * (2:ℚ)^e from by
        rw [← zpow_add₀ h2q]]
      have h2 : ((2:ℚ))^(L:ℤ) ≤ (m:ℚ) := by
        rw [zpow_natCast]
        exact_mod_cast hbrL
      have hzp : (0:ℚ) < (2:ℚ)^e := by positivity
      have hdq : (0:ℚ) ≤ (den:ℚ) := by positivity
      exact mul_le_mul_of_nonneg_right
        (mul_le_mul_of_nonneg_right h2 (le_of_lt hzp)) hdq
    · rw [hval, show (2:ℚ)^((L:ℤ)+e+1) = (2:ℚ)^((L:ℤ)+1) * (2:ℚ)^e from by
        rw [← zpow_add₀ h2q]
        congr 1
        ring]
      have h2 : (m:ℚ) < ((2:ℚ))^((L:ℤ)+1) := by
        rw [show ((L:ℤ)+1) = ((L+1 : ℕ) : ℤ) from by push_cast; ring,
          zpow_natCast]
        exact_mod_cast hbrL'
      have hzp : (0:ℚ) < (2:ℚ)^e := by positivity
      have hdq : (0:ℚ) < (den:ℚ) := by exact_mod_cast hden
      exact mul_lt_mul_of_pos_right (mul_lt_mul_of_pos_right h2 hzp) hdq
  simp only [ratToDouble]
  rw [hfl]
  rw [if_neg (by omega : ¬ (1024:ℤ) ≤ (L:ℤ) + e)]
  have het : max ((L:ℤ) + e - 52) (-1074) = e := by
    rcases hnorm with hn | hn
    · have hL52 : Nat.log 2 m = 52 := Nat.log_eq_of_pow_le_of_lt_pow hn hm2
      omega
    · omega
  rw [het]
  by_cases hke : 0 ≤ e
  · rw [if_pos hke]
    have hnat : num = m * (den * 2 ^ e.toNat) := by
      have hcast : ((2:ℚ))^e = ((2 ^ e.toNat : ℕ) : ℚ) := by
        push_cast
        rw [← zpow_natCast]
        congr 1
        omega
      have hq : (num:ℚ) = ((m * (den * 2 ^ e.toNat) : ℕ) : ℚ) := by
        rw [hval, hcast]
        push_cast
        ring
      exact_mod_cast hq
    have hXpos : 0 < den * 2 ^ e.toNat := by positivity
    have hdvd : (den * 2 ^ e.toNat) ∣ num := ⟨m, by rw [hnat]; ring⟩
    rw [roundHalfEven_exact _ _ hXpos hdvd]
    rw [show num / (den * 2 ^ e.toNat) = m from by
      rw [hnat]
      exact Nat.mul_div_cancel m hXpos]
    rw [if_neg (Nat.ne_of_lt hm2), if_neg (by omega : ¬ m = 0)]
  · rw [if_neg hke]
    have hnat : num * 2 ^ (-e).toNat = m * den := by
      have hinv : ((2:ℚ))^e * ((2 ^ (-e).toNat : ℕ) : ℚ) = 1 := by
        push_cast
        rw [← zpow_natCast]
        rw [show (((-e).toNat : ℕ) : ℤ) = -e by omega]
        rw [← zpow_add₀ h2q]
        simp
      have hq : ((num * 2 ^ (-e).toNat : ℕ) : ℚ) = ((m * den : ℕ) : ℚ) := by
        push_cast
        rw [hval]
        have hstep : (m : ℚ) * (2:ℚ) ^ e * (den : ℚ) * ((2:ℚ) ^ (-e).toNat) =
            ((m:ℚ) * (den:ℚ)) * ((2:ℚ)^e * ((2 ^ (-e).toNat : ℕ) : ℚ)) := by
          push_cast
          ring
        rw [hstep, hinv, mul_one]
      exact_mod_cast hq
    have hdvd : den ∣ num * 2 ^ (-e).toNat := ⟨m, by rw [hnat]; ring⟩
    rw [roundHalfEven_exact _ _ hden hdvd]
    rw [show num * 2 ^ (-e).toNat / den = m from by
      rw [hnat]
      exact Nat.mul_div_cancel m hden]
    rw [if_neg (Nat.ne_of_lt hm2), if_neg (by omega : ¬ m = 0)]

/-- Python `float()` of an exact decimal expansion of a canonical double is
the double itself. -/
theorem decToDouble_exact (s : Bool) (m : Nat) (e : Int) (D : Nat) (k : Int)
    (hm0 : 0 < m) (hm2 : m < 2 ^ 53)
    (hnorm : 2 ^ 52 ≤ m ∨ e = -1074)
    (he1 : -1074 ≤ e) (he2 : e ≤ 971) (hD : 0 < D)
    (hval : (D : ℚ) * (10:ℚ) ^ k = (m : ℚ) * (2:ℚ) ^ e) :
    decToDouble s D k = .finite s m e := by
  have h10q : (10:ℚ) ≠ 0 := by norm_num
  simp only [decToDouble]
  rw [if_neg (by omega : ¬ D = 0)]
  by_cases hk : 0 ≤ k
  · rw [if_pos hk]
    have hcast : ((10:ℚ))^k = ((10 ^ k.toNat : ℕ) : ℚ) := by
      push_cast
      rw [← zpow_natCast]
      congr 1
      omega
    have hq : ((D * 10 ^ k.toNat : ℕ) : ℚ) =
        (m : ℚ) * (2:ℚ) ^ e * ((1:ℕ) : ℚ) := by
      push_cast
      rw [← hval, hcast]
      push_cast
      ring
    rw [ratToDouble_exact m e _ 1 hm0 hm2 hnorm he1 he2 (by omega) hq]
  · rw [if_neg hk]
    have hinv : ((10:ℚ))^k * ((10 ^ (-k).toNat : ℕ) : ℚ) = 1 := by
      push_cast
      rw [← zpow_natCast]
      rw [show (((-k).toNat : ℕ) : ℤ) = -k by omega]
      rw [← zpow_add₀ h10q]
      simp
    have hq : ((D : ℕ) : ℚ) = (m : ℚ) * (2:ℚ) ^ e * ((10 ^ (-k).toNat : ℕ) : ℚ) := by
      have hstep : (m : ℚ) * (2:ℚ) ^ e * ((10 ^ (-k).toNat : ℕ) : ℚ) =
          ((D:ℚ) * (10:ℚ)^k) * ((10 ^ (-k).toNat : ℕ) : ℚ) := by rw [hval]
      rw [hstep, show ((D:ℚ) * (10:ℚ)^k) * ((10 ^ (-k).toNat : ℕ) : ℚ) =
          (D:ℚ) * ((10:ℚ)^k * ((10 ^ (-k).toNat : ℕ) : ℚ)) from by ring,
        hinv, mul_one]
    rw [ratToDouble_exact m e _ _ hm0 hm2 hnorm he1 he2 (by positivity) hq]

/-- Stripping factors of ten preserves the value and positivity. -/
theorem stripZeros_spec (D : Nat) :
    (stripZeros D).1 * 10 ^ (stripZeros D).2 = D ∧
      (0 < D → 0 < (stripZeros D).1) := by
  induction D using Nat.strong_induction_on with
  | _ D ih =>
    rw [stripZeros]
    split
    · next h => simp
    · next h =>
      simp only [not_or, not_not] at h
      have hlt : D / 10 < D := Nat.div_lt_self (by omega) (by omega)
      have ihh := ih (D / 10) hlt
      show (stripZeros (D / 10)).1 * 10 ^ ((stripZeros (D / 10)).2 + 1) = D ∧
        (0 < D → 0 < (stripZeros (D / 10)).1)
      constructor
      · have hdm := Nat.div_add_mod D 10
        have hv := ihh.1
        calc (stripZeros (D / 10)).1 * 10 ^ ((stripZeros (D / 10)).2 + 1) =
            ((stripZeros (D / 10)).1 * 10 ^ (stripZeros (D / 10)).2) * 10 := by
              ring
        _ = (D / 10) * 10 := by rw [hv]
        _ = D := by omega
      · intro hD
        exact ihh.2 (Nat.div_pos (by omega) (by omega))

/-- The rendering of every number has at least one digit. -/
theorem one_le_length_natToChars (n : Nat) : 1 ≤ (natToChars n).length := by
  cases h : natToChars n with
  | nil => exact absurd h (natToChars_ne_nil n)
  | cons a t => simp

/-- Five to a power times the matching negative power of ten is the
matching negative power of two. -/
theorem five_pow_mul_ten_zpow (k : ℕ) :
    ((5:ℚ))^k * (10:ℚ)^(-(k:ℤ)) = (2:ℚ)^(-(k:ℤ)) := by
  rw [zpow_neg, zpow_neg, zpow_natCast, zpow_natCast]
  rw [show (10:ℚ)^k = (5:ℚ)^k * (2:ℚ)^k from by
    rw [← mul_pow]
    norm_num]
  rw [mul_inv]
  rw [show (5:ℚ)^k * (((5:ℚ)^k)⁻¹ * ((2:ℚ)^k)⁻¹) =
      ((5:ℚ)^k * ((5:ℚ)^k)⁻¹) * ((2:ℚ)^k)⁻¹ from by ring]
  rw [mul_inv_cancel₀ (by positivity)]
  ring

/-- The rounded `n`-digit candidate value lies in the `n`-digit decade,
including its top end (before the decade-overflow adjustment). -/
theorem rhe_digit_bounds (num den : Nat) (n : Nat) (hn : 1 ≤ n)
    (hnum : 0 < num) (hden : 0 < den) :
    10 ^ (n - 1) ≤ (if 0 ≤ (n:ℤ) - decExp num den then
        roundHalfEven (num * 10 ^ ((n:ℤ) - decExp num den).toNat) den
      else roundHalfEven num (den * 10 ^ (-((n:ℤ) - decExp num den)).toNat)) ∧
    (if 0 ≤ (n:ℤ) - decExp num den then
        roundHalfEven (num * 10 ^ ((n:ℤ) - decExp num den).toNat) den
      else roundHalfEven num (den * 10 ^ (-((n:ℤ) - decExp num den)).toNat)) ≤
      10 ^ n := by
  obtain ⟨b1, b2⟩ := decExp_bracket num den hnum hden
  set E := decExp num den with hE
  have h10 : (10:ℚ) ≠ 0 := by norm_num
  have hdq : (0:ℚ) < (den:ℚ) := by exact_mod_cast hden
  constructor
  · split_ifs with hs
    · apply le_roundHalfEven _ _ _ hden
      rw [← Nat.cast_le (α := ℚ)]
      push_cast
      rw [show ((10:ℚ))^(((n:ℤ) - E).toNat) = (10:ℚ)^((n:ℤ) - E) from by
        rw [← zpow_natCast]
        congr 1
        omega]
      rw [show ((10:ℚ))^(n - 1) = (10:ℚ)^((n:ℤ) - 1) from by
        rw [← zpow_natCast]
        congr 1
        omega]
      have hP : (0:ℚ) ≤ (10:ℚ)^((n:ℤ) - E) := by positivity
      have hmul := mul_le_mul_of_nonneg_right b1 hP
      calc (10:ℚ)^((n:ℤ)-1) * den =
          ((10:ℚ)^(E-1) * den) * (10:ℚ)^((n:ℤ)-E) := by
            rw [show (10:ℚ)^((n:ℤ)-1) =
              (10:ℚ)^(E-1) * (10:ℚ)^((n:ℤ)-E) from by
              rw [← zpow_add₀ h10]
              congr 1
              ring]
            ring
      _ ≤ (num:ℚ) * (10:ℚ)^((n:ℤ)-E) := hmul
    · apply le_roundHalfEven _ _ _ (by positivity)
      rw [← Nat.cast_le (α := ℚ)]
      push_cast
      rw [show ((10:ℚ))^((-((n:ℤ) - E)).toNat) = (10:ℚ)^(E - (n:ℤ)) from by
        rw [← zpow_natCast]
        congr 1
        omega]
      rw [show ((10:ℚ))^(n - 1) = (10:ℚ)^((n:ℤ) - 1) from by
        rw [← zpow_natCast]
        congr 1
        omega]
      calc (10:ℚ)^((n:ℤ)-1) * ((den:ℚ) * (10:ℚ)^(E - (n:ℤ))) =
          (10:ℚ)^(E-1) * den := by
            rw [show (10:ℚ)^((n:ℤ)-1) * ((den:ℚ) * (10:ℚ)^(E - (n:ℤ))) =
              ((10:ℚ)^((n:ℤ)-1) * (10:ℚ)^(E - (n:ℤ))) * den from by ring]
            rw [← zpow_add₀ h10]
            rw [show (n:ℤ) - 1 + (E - (n:ℤ)) = E - 1 from by ring]
      _ ≤ (num:ℚ) := b1
  · split_ifs with hs
    · apply roundHalfEven_le _ _ _ hden
      rw [← Nat.cast_lt (α := ℚ)]
      push_cast
      rw [show ((10:ℚ))^(((n:ℤ) - E).toNat) = (10:ℚ)^((n:ℤ) - E) from by
        rw [← zpow_natCast]
        congr 1
        omega]
      rw [show ((10:ℚ))^(n : ℕ) = (10:ℚ)^((n:ℤ)) from by rw [← zpow_natCast]]
      have hP : (0:ℚ) < (10:ℚ)^((n:ℤ) - E) := by positivity
      have hmul := mul_lt_mul_of_pos_right b2 hP
      have heq : (10:ℚ)^(E) * (10:ℚ)^((n:ℤ) - E) = (10:ℚ)^((n:ℤ)) := by
        rw [← zpow_add₀ h10]
        congr 1
        ring
      calc (2:ℚ) * ((num:ℚ) * (10:ℚ)^((n:ℤ) - E)) <
            2 * ((10:ℚ)^E * den * (10:ℚ)^((n:ℤ) - E)) := by linarith
      _ = 2 * (10:ℚ)^((n:ℤ)) * den := by rw [← heq]; ring
      _ < (2 * (10:ℚ)^((n:ℤ)) + 1) * den := by
            rw [show (2 * (10:ℚ)^((n:ℤ)) + 1) * (den:ℚ) =
              2 * (10:ℚ)^((n:ℤ)) * den + den from by ring]
            linarith
    · apply roundHalfEven_le _ _ _ (by positivity)
      rw [← Nat.cast_lt (α := ℚ)]
      push_cast
      rw [show ((10:ℚ))^((-((n:ℤ) - E)).toNat) = (10:ℚ)^(E - (n:ℤ)) from by
        rw [← zpow_natCast]
        congr 1
        omega]
      rw [show ((10:ℚ))^(n : ℕ) = (10:ℚ)^((n:ℤ)) from by rw [← zpow_natCast]]
      have heq : (10:ℚ)^E = (10:ℚ)^((n:ℤ)) * (10:ℚ)^(E - (n:ℤ)) := by
        rw [← zpow_add₀ h10]
        congr 1
        ring
      have hQ : (0:ℚ) < (10:ℚ)^(E - (n:ℤ)) := by positivity
      calc (2:ℚ) * (num:ℚ) < 2 * ((10:ℚ)^E * den) := by linarith
      _ = 2 * ((10:ℚ)^((n:ℤ)) * (10:ℚ)^(E - (n:ℤ))) * den := by
            rw [heq]; ring
      _ < (2 * (10:ℚ)^((n:ℤ)) + 1) * ((den:ℚ) * (10:ℚ)^(E - (n:ℤ))) := by
            rw [show (2 * (10:ℚ)^((n:ℤ)) + 1) *
              ((den:ℚ) * (10:ℚ)^(E - (n:ℤ))) =
              2 * ((10:ℚ)^((n:ℤ)) * (10:ℚ)^(E - (n:ℤ))) * den +
                den * (10:ℚ)^(E - (n:ℤ)) from by ring]
            have hpos : (0:ℚ) < den * (10:ℚ)^(E - (n:ℤ)) := by positivity
            linarith

/-- Digit bounds for the `n`-digit nearest decimal. -/
theorem nearestDec_bounds (m : Nat) (e : Int) (n : Nat) (hm : 0 < m)
    (hn : 1 ≤ n) :
    10 ^ (n - 1) ≤ (nearestDec m e n).1 ∧ (nearestDec m e n).1 ≤ 10 ^ n := by
  simp only [nearestDec]
  by_cases he : 0 ≤ e
  · simp only [if_pos he]
    exact rhe_digit_bounds (m * 2 ^ e.toNat) 1 n hn (by positivity) (by omega)
  · simp only [if_neg he]
    exact rhe_digit_bounds m (2 ^ (-e).toNat) n hn hm (by positivity)

/-- Digit-count facts for a search candidate. -/
theorem shortCandidate_facts (m : Nat) (e : Int) (n : Nat) (hm : 0 < m)
    (hn : 1 ≤ n) :
    10 ^ ((shortCandidate m e n).2.1 - 1) ≤ (shortCandidate m e n).1 ∧
      (shortCandidate m e n).1 < 10 ^ (shortCandidate m e n).2.1 ∧
      1 ≤ (shortCandidate m e n).2.1 := by
  obtain ⟨hlo, hhi⟩ := nearestDec_bounds m e n hm hn
  simp only [shortCandidate]
  by_cases hb : (nearestDec m e n).1 = 10 ^ n
  · rw [if_pos hb]
    norm_num
  · rw [if_neg hb]
    exact ⟨hlo, lt_of_le_of_ne hhi hb, hn⟩

/-- The exact decimal expansion: positive digit value, matching digit
count, and the exact value of the input double. -/
theorem exactDigits_spec (m : Nat) (e : Int) (hm : 0 < m) :
    0 < (exactDigits m e).1 ∧
      (natToChars (exactDigits m e).1).length = (exactDigits m e).2.1 ∧
      ((exactDigits m e).1 : ℚ) *
          (10:ℚ)^((exactDigits m e).2.2 - ((exactDigits m e).2.1 : ℤ)) =
        (m:ℚ) * (2:ℚ)^e := by
  have h10 : (10:ℚ) ≠ 0 := by norm_num
  simp only [exactDigits]
  by_cases he : 0 ≤ e
  · simp only [if_pos he]
    obtain ⟨hspec, hpos⟩ := stripZeros_spec (m * 2 ^ e.toNat)
    refine ⟨hpos (by positivity), by trivial, ?_⟩
    rw [show (0:ℤ) + ((stripZeros (m * 2 ^ e.toNat)).2 : ℤ) +
        ((natToChars (stripZeros (m * 2 ^ e.toNat)).1).length : ℤ) -
        ((natToChars (stripZeros (m * 2 ^ e.toNat)).1).length : ℤ) =
        (((stripZeros (m * 2 ^ e.toNat)).2 : ℕ) : ℤ) from by ring]
    rw [zpow_natCast]
    rw [show (2:ℚ)^e = ((2:ℚ))^(e.toNat) from by
      rw [← zpow_natCast]
      congr 1
      omega]
    exact_mod_cast hspec
  · simp only [if_neg he]
    obtain ⟨hspec, hpos⟩ := stripZeros_spec (m * 5 ^ (-e).toNat)
    refine ⟨hpos (by positivity), by trivial, ?_⟩
    rw [show e + ((stripZeros (m * 5 ^ (-e).toNat)).2 : ℤ) +
        ((natToChars (stripZeros (m * 5 ^ (-e).toNat)).1).length : ℤ) -
        ((natToChars (stripZeros (m * 5 ^ (-e).toNat)).1).length : ℤ) =
        (((stripZeros (m * 5 ^ (-e).toNat)).2 : ℕ) : ℤ) + e from by ring]
    rw [zpow_add₀ h10, zpow_natCast]
    have hsq : ((stripZeros (m * 5 ^ (-e).toNat)).1 : ℚ) *
        (10:ℚ)^((stripZeros (m * 5 ^ (-e).toNat)).2) =
        (m:ℚ) * (5:ℚ)^((-e).toNat) := by exact_mod_cast hspec
    calc ((stripZeros (m * 5 ^ (-e).toNat)).1 : ℚ) *
          ((10:ℚ)^((stripZeros (m * 5 ^ (-e).toNat)).2) * (10:ℚ)^e) =
        (((stripZeros (m * 5 ^ (-e).toNat)).1 : ℚ) *
          (10:ℚ)^((stripZeros (m * 5 ^ (-e).toNat)).2)) * (10:ℚ)^e := by ring
    _ = (m:ℚ) * (5:ℚ)^((-e).toNat) * (10:ℚ)^e := by rw [hsq]
    _ = (m:ℚ) * ((5:ℚ)^((-e).toNat) * (10:ℚ)^e) := by ring
    _ = (m:ℚ) * (2:ℚ)^e := by
        congr 1
        rw [show (10:ℚ)^e = (10:ℚ)^(-((((-e).toNat : ℕ)) : ℤ)) from by
          congr 1
          omega]
        rw [show (2:ℚ)^e = (2:ℚ)^(-((((-e).toNat : ℕ)) : ℤ)) from by
          congr 1
          omega]
        exact five_pow_mul_ten_zpow (-e).toNat

/-- What the shortest-digits search guarantees: its digit value reads back
to the exact input double and spans exactly its digit count. -/
theorem shortestDigits_rb (m : Nat) (e : Int) (hm0 : 0 < m)
    (hm2 : m < 2 ^ 53) (hnorm : 2 ^ 52 ≤ m ∨ e = -1074)
    (he1 : -1074 ≤ e) (he2 : e ≤ 971) :
    decToDouble false (shortestDigits m e).1
        ((shortestDigits m e).2.2 - ((shortestDigits m e).2.1 : ℤ)) =
      .finite false m e ∧
      10 ^ ((shortestDigits m e).2.1 - 1) ≤ (shortestDigits m e).1 ∧
      (shortestDigits m e).1 < 10 ^ (shortestDigits m e).2.1 ∧
      1 ≤ (shortestDigits m e).2.1 := by
  cases hfs : (List.range 17).findSome? (fun i =>
      let c := shortCandidate m e (i + 1)
      if candOk m e c.1 c.2.1 c.2.2 then some c else none) with
  | some c =>
    have heq : shortestDigits m e = c := by
      unfold shortestDigits
      rw [hfs]
    rw [heq]
    obtain ⟨i, hi, hfi⟩ := List.exists_of_findSome?_eq_some hfs
    simp only [Option.ite_none_right_eq_some, Option.some.injEq] at hfi
    obtain ⟨hok, hceq⟩ := hfi
    subst hceq
    unfold candOk at hok
    have hrb := of_decide_eq_true hok
    obtain ⟨f1, f2, f3⟩ := shortCandidate_facts m e (i + 1) hm0 (by omega)
    exact ⟨hrb, f1, f2, f3⟩
  | none =>
    have heq : shortestDigits m e = exactDigits m e := by
      unfold shortestDigits
      rw [hfs]
    rw [heq]
    obtain ⟨hpos, hlen, hval⟩ := exactDigits_spec m e hm0
    refine ⟨?_, ?_, ?_, ?_⟩
    · exact decToDouble_exact false m e _ _ hm0 hm2 hnorm he1 he2 hpos hval
    · rw [← hlen]
      exact pow_le_natToChars _ hpos
    · rw [← hlen]
      exact natToChars_lt_pow _
    · rw [← hlen]
      exact one_le_length_natToChars _

/-- Rounding depends only on the value of the fraction. -/
theorem roundHalfEven_congr (n1 d1 n2 d2 : Nat) (hd1 : 0 < d1)
    (hd2 : 0 < d2) (h : n1 * d2 = n2 * d1) :
    roundHalfEven n1 d1 = roundHalfEven n2 d2 := by
  have h1 := roundHalfEven_scale n1 d1 d2 hd2
  have h2 := roundHalfEven_scale n2 d2 d1 hd1
  rw [← h1, ← h2, h, Nat.mul_comm d1 d2]

/-- The double nearest a positive rational depends only on its value. -/
theorem ratToDouble_congr (n1 d1 n2 d2 : Nat) (h1 : 0 < n1) (hd1 : 0 < d1)
    (h2 : 0 < n2) (hd2 : 0 < d2) (hval : n1 * d2 = n2 * d1) :
    ratToDouble n1 d1 = ratToDouble n2 d2 := by
  have hd1q : (0:ℚ) < d1 := by exact_mod_cast hd1
  have hd2q : (0:ℚ) < d2 := by exact_mod_cast hd2
  have hvq : (n1:ℚ) * d2 = (n2:ℚ) * d1 := by exact_mod_cast hval
  have hfl : floorLog2 n2 d2 = floorLog2 n1 d1 := by
    obtain ⟨b1, b2⟩ := floorLog2_bracket n1 d1 h1 hd1
    apply floorLog2_eq_of_bracket n2 d2 h2 hd2
    · have hstep := mul_le_mul_of_nonneg_right b1 (le_of_lt hd2q)
      rw [show (n1:ℚ) * d2 = (n2:ℚ) * d1 from hvq] at hstep
      have hre : ((2:ℚ) ^ floorLog2 n1 d1 * d2) * d1 ≤ ((n2:ℚ)) * d1 := by
        calc ((2:ℚ) ^ floorLog2 n1 d1 * d2) * d1 =
            (2:ℚ) ^ floorLog2 n1 d1 * d1 * d2 := by ring
        _ ≤ (n2:ℚ) * d1 := hstep
      exact le_of_mul_le_mul_right hre hd1q
    · obtain hmul := mul_lt_mul_of_pos_right b2 hd2q
      have hre : ((n2:ℚ)) * d1 < ((2:ℚ) ^ (floorLog2 n1 d1 + 1) * d2) * d1 := by
        calc ((n2:ℚ)) * d1 = (n1:ℚ) * d2 := hvq.symm
        _ < (2:ℚ) ^ (floorLog2 n1 d1 + 1) * d1 * d2 := hmul
        _ = ((2:ℚ) ^ (floorLog2 n1 d1 + 1) * d2) * d1 := by ring
      exact lt_of_mul_lt_mul_right hre (le_of_lt hd1q)
  simp only [ratToDouble, hfl]
  by_cases hov : (1024:ℤ) ≤ floorLog2 n1 d1
  · rw [if_pos hov, if_pos hov]
  · rw [if_neg hov, if_neg hov]
    by_cases he : (0:ℤ) ≤ max (floorLog2 n1 d1 - 52) (-1074)
    · rw [if_pos he, if_pos he]
      have hrw : roundHalfEven n2
          (d2 * 2 ^ (max (floorLog2 n1 d1 - 52) (-1074)).toNat) =
          roundHalfEven n1
            (d1 * 2 ^ (max (floorLog2 n1 d1 - 52) (-1074)).toNat) := by
        apply roundHalfEven_congr _ _ _ _ (by positivity) (by positivity)
        calc n2 * (d1 * 2 ^ (max (floorLog2 n1 d1 - 52) (-1074)).toNat) =
            (n2 * d1) * 2 ^ (max (floorLog2 n1 d1 - 52) (-1074)).toNat := by
              ring
        _ = (n1 * d2) * 2 ^ (max (floorLog2 n1 d1 - 52) (-1074)).toNat := by
              rw [hval]
        _ = n1 * (d2 * 2 ^ (max (floorLog2 n1 d1 - 52) (-1074)).toNat) := by
              ring
      rw [hrw]
    · rw [if_neg he, if_neg he]
      have hrw : roundHalfEven
          (n2 * 2 ^ (-max (floorLog2 n1 d1 - 52) (-1074)).toNat) d2 =
          roundHalfEven
            (n1 * 2 ^ (-max (floorLog2 n1 d1 - 52) (-1074)).toNat) d1 := by
        apply roundHalfEven_congr _ _ _ _ hd2 hd1
        calc n2 * 2 ^ (-max (floorLog2 n1 d1 - 52) (-1074)).toNat * d1 =
            (n2 * d1) * 2 ^ (-max (floorLog2 n1 d1 - 52) (-1074)).toNat := by
              ring
        _ = (n1 * d2) * 2 ^ (-max (floorLog2 n1 d1 - 52) (-1074)).toNat := by
              rw [hval]
        _ = n1 * 2 ^ (-max (floorLog2 n1 d1 - 52) (-1074)).toNat * d2 := by
              ring
      rw [hrw]

/-- Moving powers of ten between the digits and the exponent of a decimal
literal does not change the double it reads back to. -/
theorem decToDouble_scale (s : Bool) (a : Nat) (k : Int) (t : Nat) :
    decToDouble s (a * 10 ^ t) (k - t) = decToDouble s a k := by
  by_cases ha : a = 0
  · subst ha
    simp [decToDouble]
  · have hat : ¬ a * 10 ^ t = 0 := by positivity
    simp only [decToDouble, if_neg ha, if_neg hat]
    by_cases hk1 : (0:ℤ) ≤ k - t
    · have hk2 : (0:ℤ) ≤ k := by omega
      simp only [if_pos hk1, if_pos hk2]
      have hcross : (a * 10 ^ t * 10 ^ (k - (t:ℤ)).toNat) * 1 =
          (a * 10 ^ k.toNat) * 1 := by
        rw [Nat.mul_one, Nat.mul_one, Nat.mul_assoc, ← Nat.pow_add]
        congr 2
        omega
      rw [ratToDouble_congr _ _ _ _ (by positivity) (by omega)
        (by positivity) (by omega) hcross]
    · by_cases hk2 : (0:ℤ) ≤ k
      · simp only [if_neg hk1, if_pos hk2]
        have hcross : (a * 10 ^ t) * 1 =
            (a * 10 ^ k.toNat) * 10 ^ (-(k - (t:ℤ))).toNat := by
          rw [Nat.mul_one, Nat.mul_assoc, ← Nat.pow_add]
          congr 2
          omega
        rw [ratToDouble_congr _ _ _ _ (by positivity) (by positivity)
          (by positivity) (by positivity) hcross]
      · simp only [if_neg hk1, if_neg hk2]
        have hcross : (a * 10 ^ t) * 10 ^ (-k).toNat =
            a * 10 ^ (-(k - (t:ℤ))).toNat := by
          rw [Nat.mul_assoc, ← Nat.pow_add]
          congr 2
          omega
        rw [ratToDouble_congr _ _ _ _ (by positivity) (by positivity)
          (by positivity) (by positivity) hcross]

/-- The sign threads through the decimal read-back unchanged. -/
theorem decToDouble_sign (s : Bool) (D : Nat) (k : Int) (m : Nat) (e : Int)
    (h : decToDouble false D k = .finite false m e) :
    decToDouble s D k = .finite s m e := by
  simp only [decToDouble] at h ⊢
  by_cases hD : D = 0
  · rw [if_pos hD] at h ⊢
    cases h
    rfl
  · rw [if_neg hD] at h ⊢
    cases hr : ratToDouble (if 0 ≤ k then (D * 10 ^ k.toNat, 1)
        else (D, 10 ^ (-k).toNat)).1
        (if 0 ≤ k then (D * 10 ^ k.toNat, 1)
          else (D, 10 ^ (-k).toNat)).2 with
    | some p =>
      rw [hr] at h
      obtain ⟨m', e'⟩ := p
      cases h
      rfl
    | none =>
      rw [hr] at h
      simp at h

/-- Parsing a nonempty digit run before a non-digit boundary. -/
theorem parseNat_digits (l rest : List Char)
    (hl : ∀ c ∈ l, c.isDigit = true) (hne : l ≠ [])
    (hrest : headNotDigit rest = true) :
    parseNat (l ++ rest) = some (digitsVal l, rest) := by
  have htw := takeWhile_digits_general _ _ hl hrest
  have hne' : l.isEmpty = false := by
    cases l with
    | nil => exact absurd rfl hne
    | cons a t => rfl
  simp only [parseNat, htw, hne', Bool.false_eq_true, if_false,
    List.drop_left]

/-- A leading zero character does not change a digit value. -/
theorem digitsVal_zero_cons (ds : List Char) :
    digitsVal ('0' :: ds) = digitsVal ds := by
  have h := digitsVal_replicate_zero 1 ds
  simpa using h

/-- The number-tail reader on a fraction with no exponent. -/
theorem parseNumberTail_frac (sign : Bool) (ip : Nat) (fds : List Char)
    (hfds : ∀ c ∈ fds, c.isDigit = true) (hne : fds ≠ [])
    (rest : List Char) (hrest : noLeadDigit rest = true) :
    parseNumberTail sign ip ('.' :: (fds ++ rest)) =
      (.flt (decToDouble sign (ip * 10 ^ fds.length + digitsVal fds)
        (-(fds.length : ℤ))), rest) := by
  have hhead : headNotDigit rest = true := by
    cases rest with
    | nil => rfl
    | cons c t =>
      have := (noLeadDigit_parts hrest).1
      simp [headNotDigit, this]
  have htw := takeWhile_digits_general _ _ hfds hhead
  have hfe : fds.isEmpty = false := by
    cases fds with
    | nil => exact absurd rfl hne
    | cons a t => rfl
  simp only [parseNumberTail, htw, hfe, Bool.false_eq_true, if_false,
    List.drop_left, reduceIte]
  cases rest with
  | nil => simp [Option.getD]
  | cons c t =>
    obtain ⟨_, _, h2, h3⟩ := noLeadDigit_parts hrest
    simp only [h2, h3, or_self, if_false, reduceIte]
    simp [Option.getD]

/-- The number-tail reader on a positive exponent with no fraction. -/
theorem parseNumberTail_expPlus (sign : Bool) (ip : Nat) (eds : List Char)
    (heds : ∀ c ∈ eds, c.isDigit = true) (hne : eds ≠ [])
    (rest : List Char) (hrest : noLeadDigit rest = true) :
    parseNumberTail sign ip ('e' :: '+' :: (eds ++ rest)) =
      (.flt (decToDouble sign ip ((digitsVal eds : ℤ))), rest) := by
  have hhead : headNotDigit rest = true := by
    cases rest with
    | nil => rfl
    | cons c t =>
      have := (noLeadDigit_parts hrest).1
      simp [headNotDigit, this]
  have htw := takeWhile_digits_general _ _ heds hhead
  have hfe : eds.isEmpty = false := by
    cases eds with
    | nil => exact absurd rfl hne
    | cons a t => rfl
  simp only [parseNumberTail]
  rw [if_neg (show ¬ ('e' : Char) = '.' from by decide)]
  simp only [htw, hfe, Bool.false_eq_true, if_false, List.drop_left,
    reduceIte]
  simp [Option.getD, digitsVal]

/-- The number-tail reader on a negative exponent with no fraction. -/
theorem parseNumberTail_expMinus (sign : Bool) (ip : Nat) (eds : List Char)
    (heds : ∀ c ∈ eds, c.isDigit = true) (hne : eds ≠ [])
    (rest : List Char) (hrest : noLeadDigit rest = true) :
    parseNumberTail sign ip ('e' :: '-' :: (eds ++ rest)) =
      (.flt (decToDouble sign ip (-(digitsVal eds : ℤ))), rest) := by
  have hhead : headNotDigit rest = true := by
    cases rest with
    | nil => rfl
    | cons c t =>
      have := (noLeadDigit_parts hrest).1
      simp [headNotDigit, this]
  have htw := takeWhile_digits_general _ _ heds hhead
  have hfe : eds.isEmpty = false := by
    cases eds with
    | nil => exact absurd rfl hne
    | cons a t => rfl
  simp only [parseNumberTail]
  rw [if_neg (show ¬ ('e' : Char) = '.' from by decide)]
  simp only [htw, hfe, Bool.false_eq_true, if_false, List.drop_left,
    reduceIte]
  rw [if_neg (show ¬ ('-' : Char) = '+' from by decide)]
  simp [Option.getD, digitsVal]

/-- The number-tail reader on a fraction followed by a positive exponent. -/
theorem parseNumberTail_fracExpPlus (sign : Bool) (ip : Nat)
    (fds eds : List Char) (hfds : ∀ c ∈ fds, c.isDigit = true)
    (hfne : fds ≠ []) (heds : ∀ c ∈ eds, c.isDigit = true) (hene : eds ≠ [])
    (rest : List Char) (hrest : noLeadDigit rest = true) :
    parseNumberTail sign ip ('.' :: (fds ++ 'e' :: '+' :: (eds ++ rest))) =
      (.flt (decToDouble sign (ip * 10 ^ fds.length + digitsVal fds)
        ((digitsVal eds : ℤ) - (fds.length : ℤ))), rest) := by
  have hhead : headNotDigit rest = true := by
    cases rest with
    | nil => rfl
    | cons c t =>
      have := (noLeadDigit_parts hrest).1
      simp [headNotDigit, this]
  have htwf : (fds ++ 'e' :: '+' :: (eds ++ rest)).takeWhile Char.isDigit =
      fds := takeWhile_digits_general _ _ hfds rfl
  have htwe := takeWhile_digits_general _ _ heds hhead
  have hffe : fds.isEmpty = false := by
    cases fds with
    | nil => exact absurd rfl hfne
    | cons a t => rfl
  have hefe : eds.isEmpty = false := by
    cases eds with
    | nil => exact absurd rfl hene
    | cons a t => rfl
  simp only [parseNumberTail, htwf, htwe, hffe, hefe, Bool.false_eq_true,
    if_false, List.drop_left, reduceIte]
  simp [Option.getD]

/-- The number-tail reader on a fraction followed by a negative exponent. -/
theorem parseNumberTail_fracExpMinus (sign : Bool) (ip : Nat)
    (fds eds : List Char) (hfds : ∀ c ∈ fds, c.isDigit = true)
    (hfne : fds ≠ []) (heds : ∀ c ∈ eds, c.isDigit = true) (hene : eds ≠ [])
    (rest : List Char) (hrest : noLeadDigit rest = true) :
    parseNumberTail sign ip ('.' :: (fds ++ 'e' :: '-' :: (eds ++ rest))) =
      (.flt (decToDouble sign (ip * 10 ^ fds.length + digitsVal fds)
        (-(digitsVal eds : ℤ) - (fds.length : ℤ))), rest) := by
  have hhead : headNotDigit rest = true := by
    cases rest with
    | nil => rfl
    | cons c t =>
      have := (noLeadDigit_parts hrest).1
      simp [headNotDigit, this]
  have htwf : (fds ++ 'e' :: '-' :: (eds ++ rest)).takeWhile Char.isDigit =
      fds := takeWhile_digits_general _ _ hfds rfl
  have htwe := takeWhile_digits_general _ _ heds hhead
  have hffe : fds.isEmpty = false := by
    cases fds with
    | nil => exact absurd rfl hfne
    | cons a t => rfl
  have hefe : eds.isEmpty = false := by
    cases eds with
    | nil => exact absurd rfl hene
    | cons a t => rfl
  simp only [parseNumberTail, htwf, htwe, hffe, hefe, Bool.false_eq_true,
    if_false, List.drop_left, reduceIte]
  simp [Option.getD]

/-- The decimal rendering is a digit followed by more characters. -/
theorem natToChars_head (n : Nat) :
    ∃ d t, natToChars n = d :: t ∧ d.isDigit = true := by
  cases h : natToChars n with
  | nil => exact absurd h (natToChars_ne_nil n)
  | cons d t =>
    refine ⟨d, t, rfl, natToChars_digits n d ?_⟩
    rw [h]
    simp

/-- Padding an exponent to two digits keeps it a digit run. -/
theorem padTwo_digits (l : List Char) (h : ∀ c ∈ l, c.isDigit = true) :
    ∀ c ∈ padTwo l, c.isDigit = true := by
  intro c hc
  simp only [padTwo] at hc
  split at hc
  · rcases List.mem_cons.mp hc with h1 | h1
    · subst h1
      decide
    · exact h c h1
  · exact h c hc

/-- A padded exponent is never empty. -/
theorem padTwo_ne_nil (l : List Char) : padTwo l ≠ [] := by
  by_cases h : l.length < 2
  · simp [padTwo, h]
  · simp only [padTwo, if_neg h]
    intro hnil
    rw [hnil] at h
    simp at h

/-- Padding does not change the digit value. -/
theorem digitsVal_padTwo (l : List Char) :
    digitsVal (padTwo l) = digitsVal l := by
  by_cases h : l.length < 2
  · simp [padTwo, h, digitsVal_zero_cons]
  · simp [padTwo, h]

/-- Rewriting both numeric arguments of the decimal read-back. -/
theorem decToDouble_congr2 (s : Bool) (a b : Nat) (k l : Int)
    (ha : a = b) (hk : k = l) : decToDouble s a k = decToDouble s b l := by
  rw [ha, hk]

/-- A zero decimal reads back as the zero of the requested sign. -/
theorem decToDouble_zero (s : Bool) (k : Int) :
    decToDouble s 0 k = .finite s 0 0 := by
  simp [decToDouble]

/-- The shortest-repr rendering starts with a digit. -/
theorem formatShort_head (d n : Nat) (E : Int) :
    ∃ c t, formatShort d n E = c :: t ∧ c.isDigit = true := by
  obtain ⟨c, t, hnc, hcd⟩ := natToChars_head d
  simp only [formatShort]
  by_cases hsci : E ≤ -4 ∨ 16 < E
  · rw [if_pos hsci]
    by_cases h1d : (natToChars d).length ≤ 1
    · rw [if_pos h1d, hnc]
      refine ⟨c, t ++ 'e' :: (if E - 1 < 0 then '-' else '+') ::
        padTwo (natToChars (E - 1).natAbs), ?_, hcd⟩
      simp
    · rw [if_neg h1d, hnc]
      refine ⟨c, '.' :: (t ++ 'e' :: (if E - 1 < 0 then '-' else '+') ::
        padTwo (natToChars (E - 1).natAbs)), ?_, hcd⟩
      simp
  · rw [if_neg hsci]
    by_cases hE0 : E ≤ 0
    · rw [if_pos hE0]
      exact ⟨'0', _, rfl, by decide⟩
    · rw [if_neg hE0]
      by_cases hnE : (n : Int) ≤ E
      · rw [if_pos hnE, hnc]
        refine ⟨c, t ++ List.replicate (E - (n : ℤ)).toNat '0' ++
          ['.', '0'], ?_, hcd⟩
        simp
      · rw [if_neg hnE, hnc]
        obtain ⟨k, hk⟩ : ∃ k, E.toNat = k + 1 := ⟨E.toNat - 1, by omega⟩
        refine ⟨c, List.take k t ++ '.' :: List.drop E.toNat (c :: t),
          ?_, hcd⟩
        rw [hk]
        simp

/-- Reading the shortest-repr rendering of `d·10^(E-n)` back through the
number branch: the leading digit run parses, and the tail reader restores
exactly that decimal (for either sign). -/
theorem parseNat_formatShort (d n : Nat) (E : Int)
    (h1 : 10 ^ (n - 1) ≤ d) (h2 : d < 10 ^ n) (hn : 1 ≤ n)
    (rest : List Char) (hrest : noLeadDigit rest = true) :
    ∃ ip tail, parseNat (formatShort d n E ++ rest) = some (ip, tail) ∧
      ∀ sign, parseNumberTail sign ip tail =
        (JsonValue.flt (decToDouble sign d (E - (n : ℤ))), rest) := by
  have hd0 : 0 < d := lt_of_lt_of_le (by positivity) h1
  have hlen : (natToChars d).length = n := natToChars_length_eq d n hn h1 h2
  have hpd : ∀ c ∈ padTwo (natToChars (E - 1).natAbs), c.isDigit = true :=
    padTwo_digits _ (natToChars_digits _)
  have hpne : padTwo (natToChars (E - 1).natAbs) ≠ [] := padTwo_ne_nil _
  have hpval : digitsVal (padTwo (natToChars (E - 1).natAbs)) =
      (E - 1).natAbs := by
    rw [digitsVal_padTwo, digitsVal_natToChars]
  simp only [formatShort]
  by_cases hsci : E ≤ -4 ∨ 16 < E
  · rw [if_pos hsci]
    by_cases h1d : (natToChars d).length ≤ 1
    · -- one significant digit, scientific form
      rw [if_pos h1d]
      have hn1 : n = 1 := by omega
      by_cases hexs : E - 1 < 0
      · rw [if_pos hexs]
        rw [show (natToChars d ++ 'e' :: '-' ::
            padTwo (natToChars (E - 1).natAbs)) ++ rest =
            natToChars d ++ ('e' :: '-' ::
              (padTwo (natToChars (E - 1).natAbs) ++ rest)) from by simp]
        refine ⟨_, _, parseNat_digits _ _ (natToChars_digits d)
          (natToChars_ne_nil d) rfl, ?_⟩
        intro sign
        rw [parseNumberTail_expMinus sign _ _ hpd hpne rest hrest]
        simp only [Prod.mk.injEq, JsonValue.flt.injEq]
        refine ⟨decToDouble_congr2 _ _ _ _ _ ?_ ?_, trivial⟩
        · exact digitsVal_natToChars d
        · rw [hpval]
          omega
      · rw [if_neg hexs]
        rw [show (natToChars d ++ 'e' :: '+' ::
            padTwo (natToChars (E - 1).natAbs)) ++ rest =
            natToChars d ++ ('e' :: '+' ::
              (padTwo (natToChars (E - 1).natAbs) ++ rest)) from by simp]
        refine ⟨_, _, parseNat_digits _ _ (natToChars_digits d)
          (natToChars_ne_nil d) rfl, ?_⟩
        intro sign
        rw [parseNumberTail_expPlus sign _ _ hpd hpne rest hrest]
        simp only [Prod.mk.injEq, JsonValue.flt.injEq]
        refine ⟨decToDouble_congr2 _ _ _ _ _ ?_ ?_, trivial⟩
        · exact digitsVal_natToChars d
        · rw [hpval]
          omega
    · -- several significant digits, scientific form
      rw [if_neg h1d]
      have htkd : ∀ c ∈ (natToChars d).take 1, c.isDigit = true :=
        fun c hc => natToChars_digits d c (List.mem_of_mem_take hc)
      have htkne : (natToChars d).take 1 ≠ [] := by
        refine List.ne_nil_of_length_pos ?_
        rw [List.length_take, hlen]
        exact lt_min (by omega) (by omega)
      have hdrd : ∀ c ∈ (natToChars d).drop 1, c.isDigit = true :=
        fun c hc => natToChars_digits d c (List.mem_of_mem_drop hc)
      have hdrne : (natToChars d).drop 1 ≠ [] := by
        refine List.ne_nil_of_length_pos ?_
        rw [List.length_drop, hlen]
        omega
      by_cases hexs : E - 1 < 0
      · rw [if_pos hexs]
        rw [show ((natToChars d).take 1 ++ '.' :: (natToChars d).drop 1 ++
            'e' :: '-' :: padTwo (natToChars (E - 1).natAbs)) ++ rest =
            (natToChars d).take 1 ++ ('.' :: ((natToChars d).drop 1 ++
              'e' :: '-' ::
                (padTwo (natToChars (E - 1).natAbs) ++ rest))) from by simp]
        refine ⟨_, _, parseNat_digits _ _ htkd htkne rfl, ?_⟩
        intro sign
        rw [parseNumberTail_fracExpMinus sign _ _ _ hdrd hdrne hpd hpne
          rest hrest]
        simp only [Prod.mk.injEq, JsonValue.flt.injEq]
        refine ⟨decToDouble_congr2 _ _ _ _ _ ?_ ?_, trivial⟩
        · rw [← digitsVal_append, List.take_append_drop,
            digitsVal_natToChars]
        · rw [hpval, List.length_drop, hlen]
          omega
      · rw [if_neg hexs]
        rw [show ((natToChars d).take 1 ++ '.' :: (natToChars d).drop 1 ++
            'e' :: '+' :: padTwo (natToChars (E - 1).natAbs)) ++ rest =
            (natToChars d).take 1 ++ ('.' :: ((natToChars d).drop 1 ++
              'e' :: '+' ::
                (padTwo (natToChars (E - 1).natAbs) ++ rest))) from by simp]
        refine ⟨_, _, parseNat_digits _ _ htkd htkne rfl, ?_⟩
        intro sign
        rw [parseNumberTail_fracExpPlus sign _ _ _ hdrd hdrne hpd hpne
          rest hrest]
        simp only [Prod.mk.injEq, JsonValue.flt.injEq]
        refine ⟨decToDouble_congr2 _ _ _ _ _ ?_ ?_, trivial⟩
        · rw [← digitsVal_append, List.take_append_drop,
            digitsVal_natToChars]
        · rw [hpval, List.length_drop, hlen]
          omega
  · rw [if_neg hsci]
    by_cases hE0 : E ≤ 0
    · -- fixed form below one: 0.00…digits
      rw [if_pos hE0]
      rw [show ('0' :: '.' :: (List.replicate (-E).toNat '0' ++
          natToChars d)) ++ rest =
          ['0'] ++ ('.' :: ((List.replicate (-E).toNat '0' ++
            natToChars d) ++ rest)) from by simp]
      refine ⟨_, _, parseNat_digits _ _ (by decide) (by decide) rfl, ?_⟩
      intro sign
      have hfds : ∀ c ∈ List.replicate (-E).toNat '0' ++ natToChars d,
          c.isDigit = true := by
        intro c hc
        rcases List.mem_append.mp hc with h | h
        · rw [List.eq_of_mem_replicate h]
          decide
        · exact natToChars_digits d c h
      have hfne : List.replicate (-E).toNat '0' ++ natToChars d ≠ [] := by
        simp [natToChars_ne_nil d]
      rw [parseNumberTail_frac sign _ _ hfds hfne rest hrest]
      simp only [Prod.mk.injEq, JsonValue.flt.injEq]
      refine ⟨decToDouble_congr2 _ _ _ _ _ ?_ ?_, trivial⟩
      · rw [show digitsVal ['0'] = 0 from rfl, digitsVal_replicate_zero,
          digitsVal_natToChars]
        simp
      · rw [List.length_append, List.length_replicate, hlen]
        omega
    · rw [if_neg hE0]
      by_cases hnE : (n : Int) ≤ E
      · -- integral fixed form: digits, padding zeros, trailing .0
        rw [if_pos hnE]
        rw [show (natToChars d ++ List.replicate (E - n).toNat '0' ++
            ['.', '0']) ++ rest =
            (natToChars d ++ List.replicate (E - n).toNat '0') ++
              ('.' :: (['0'] ++ rest)) from by simp]
        have hld : ∀ c ∈ natToChars d ++ List.replicate (E - n).toNat '0',
            c.isDigit = true := by
          intro c hc
          rcases List.mem_append.mp hc with h | h
          · exact natToChars_digits d c h
          · rw [List.eq_of_mem_replicate h]
            decide
        have hlne : natToChars d ++ List.replicate (E - n).toNat '0' ≠
            [] := by
          simp [natToChars_ne_nil d]
        refine ⟨_, _, parseNat_digits _ _ hld hlne rfl, ?_⟩
        intro sign
        rw [parseNumberTail_frac sign _ ['0'] (by decide) (by decide)
          rest hrest]
        rw [← decToDouble_scale sign d (E - (n : ℤ))
          ((E - (n : ℤ)).toNat + 1)]
        simp only [Prod.mk.injEq, JsonValue.flt.injEq]
        refine ⟨decToDouble_congr2 _ _ _ _ _ ?_ ?_, trivial⟩
        · rw [digitsVal_append, digitsVal_natToChars,
            show digitsVal (List.replicate (E - (n : ℤ)).toNat '0') = 0 from
              by simpa using digitsVal_replicate_zero (E - (n : ℤ)).toNat [],
            List.length_replicate,
            show digitsVal ['0'] = 0 from rfl,
            show (['0'] : List Char).length = 1 from rfl]
          ring
        · rw [show (['0'] : List Char).length = 1 from rfl]
          omega
      · -- mixed fixed form: point inside the digits
        rw [if_neg hnE]
        rw [show ((natToChars d).take E.toNat ++ '.' ::
            (natToChars d).drop E.toNat) ++ rest =
            (natToChars d).take E.toNat ++ ('.' ::
              ((natToChars d).drop E.toNat ++ rest)) from by simp]
        have htkd : ∀ c ∈ (natToChars d).take E.toNat, c.isDigit = true :=
          fun c hc => natToChars_digits d c (List.mem_of_mem_take hc)
        have htkne : (natToChars d).take E.toNat ≠ [] := by
          refine List.ne_nil_of_length_pos ?_
          rw [List.length_take, hlen]
          exact lt_min (by omega) (by omega)
        have hdrd : ∀ c ∈ (natToChars d).drop E.toNat, c.isDigit = true :=
          fun c hc => natToChars_digits d c (List.mem_of_mem_drop hc)
        have hdrne : (natToChars d).drop E.toNat ≠ [] := by
          refine List.ne_nil_of_length_pos ?_
          rw [List.length_drop, hlen]
          omega
        refine ⟨_, _, parseNat_digits _ _ htkd htkne rfl, ?_⟩
        intro sign
        rw [parseNumberTail_frac sign _ _ hdrd hdrne rest hrest]
        simp only [Prod.mk.injEq, JsonValue.flt.injEq]
        refine ⟨decToDouble_congr2 _ _ _ _ _ ?_ ?_, trivial⟩
        · rw [← digitsVal_append, List.take_append_drop,
            digitsVal_natToChars]
        · rw [List.length_drop, hlen]
          omega

/-- Hex digits render and read back correctly. -/
theorem hexVal_toHexDigit (d : Nat) (h : d < 16) :
    hexVal (toHexDigit d) = some d := by
  interval_cases d <;> rfl

/-- A `\uXXXX` payload rendered from `n < 65536` reads back as `n`. -/
theorem hex4Val_digits (n : Nat) (h : n < 65536) :
    hex4Val (toHexDigit (n / 4096 % 16)) (toHexDigit (n / 256 % 16))
      (toHexDigit (n / 16 % 16)) (toHexDigit (n % 16)) = some n := by
  unfold hex4Val
  rw [hexVal_toHexDigit _ (Nat.mod_lt _ (by omega)),
    hexVal_toHexDigit _ (Nat.mod_lt _ (by omega)),
    hexVal_toHexDigit _ (Nat.mod_lt _ (by omega)),
    hexVal_toHexDigit _ (Nat.mod_lt _ (by omega))]
  simp only [Option.some.injEq]
  omega

/-- Leading whitespace may be dropped before skipping whitespace. -/
theorem skipWs_ws_append (pre l : List Char) (h : ∀ c ∈ pre, isWs c = true) :
    skipWs (pre ++ l) = skipWs l := by
  induction pre with
  | nil => rfl
  | cons c t ih =>
    simp only [List.cons_append, skipWs, List.dropWhile_cons,
      h c (by simp)]
    exact ih fun d hd => h d (by simp [hd])

/-- Skipping whitespace before a non-whitespace head is the identity. -/
theorem skipWs_cons_of_not_ws (c : Char) (l : List Char) (h : isWs c = false) :
    skipWs (c :: l) = c :: l := by
  simp [skipWs, List.dropWhile_cons, h]

/-- Whitespace skipping keeps a leading closing bracket. -/
theorem skipWs_rbracket (l : List Char) : skipWs (']' :: l) = ']' :: l :=
  skipWs_cons_of_not_ws _ _ (by decide)

/-- Whitespace skipping keeps a leading closing brace. -/
theorem skipWs_rbrace (l : List Char) : skipWs ('\x7d' :: l) = '\x7d' :: l :=
  skipWs_cons_of_not_ws _ _ (by decide)

/-- Whitespace skipping keeps a leading comma. -/
theorem skipWs_comma (l : List Char) : skipWs (',' :: l) = ',' :: l :=
  skipWs_cons_of_not_ws _ _ (by decide)

/-- Whitespace skipping keeps a leading colon. -/
theorem skipWs_colon (l : List Char) : skipWs (':' :: l) = ':' :: l :=
  skipWs_cons_of_not_ws _ _ (by decide)

/-- Reading back four rendered hex digits. -/
theorem parseU4_hex4 (n : Nat) (h : n < 65536) (tail : List Char) :
    parseU4 (hex4 n ++ tail) = some (n, tail) := by
  simp only [hex4, List.cons_append, List.nil_append]
  simp only [parseU4]
  rw [hex4Val_digits n h]

/-- A basic-plane `\u` payload decodes to its own character. -/
theorem parseUEscape_bmp (n : Nat) (h : n < 65536)
    (hr : n < 55296 ∨ 57343 < n) (tail : List Char) :
    parseUEscape (hex4 n ++ tail) = some (Char.ofNat n, tail) := by
  unfold parseUEscape
  rw [parseU4_hex4 n h]
  simp only [if_pos hr]

/-- A surrogate-pair `\u` payload decodes to the combined character. -/
theorem parseUEscape_surrogates (h lo : Nat) (hh1 : 55296 ≤ h) (hh2 : h < 56320)
    (hl1 : 56320 ≤ lo) (hl2 : lo < 57344) (tail : List Char) :
    parseUEscape (hex4 h ++ ('\\' :: 'u' :: (hex4 lo ++ tail))) =
      some (Char.ofNat (65536 + (h - 55296) * 1024 + (lo - 56320)), tail) := by
  unfold parseUEscape
  rw [parseU4_hex4 h (by omega)]
  simp only [if_neg (show ¬ (h < 55296 ∨ 57343 < h) from by
    push_neg
    exact ⟨hh1, by omega⟩), if_pos hh2]
  simp only [and_self, if_true]
  rw [parseU4_hex4 lo (by omega)]
  simp only [if_pos (show 56320 ≤ lo ∧ lo < 57344 from ⟨hl1, hl2⟩)]

/-- One step of the string-body parser at a backslash. -/
theorem psb_backslash (fuel : Nat) (l : List Char) :
    parseStringBody (fuel + 1) ('\\' :: l) =
      match parseEscapeChar l with
      | some (d, r2) => consChar d (parseStringBody fuel r2)
      | none => none := by
  simp [parseStringBody]

/-- The escape dispatcher forwards a `u` escape to the `\u` decoder. -/
theorem pec_u (r : List Char) : parseEscapeChar ('u' :: r) = parseUEscape r := by
  simp [parseEscapeChar]

/-- Decoding one escaped character: the string-body parser consumes exactly
`escapeChar c` and decodes it back to `c`, whatever follows. -/
theorem parseStringBody_escapeChar (c : Char) (fuel : Nat) (tail : List Char) :
    parseStringBody (fuel + 1) (escapeChar c ++ tail) =
      consChar c (parseStringBody fuel tail) := by
  have hv := char_valid_ranges c
  unfold escapeChar
  split_ifs with h1 h2 h3 h4 h5 h6 h7 h8 h9
  · subst h1; simp [parseStringBody, parseEscapeChar]
  · subst h2; simp [parseStringBody, parseEscapeChar]
  · subst h3; simp [parseStringBody, parseEscapeChar]
  · subst h4; simp [parseStringBody, parseEscapeChar]
  · subst h5; simp [parseStringBody, parseEscapeChar]
  · subst h6; simp [parseStringBody, parseEscapeChar]
  · subst h7; simp [parseStringBody, parseEscapeChar]
  · -- basic-plane `\uXXXX` escape
    have hrange : c.toNat < 55296 ∨ 57343 < c.toNat := by
      rcases hv with h | ⟨a, _⟩
      · exact Or.inl h
      · exact Or.inr a
    simp only [List.cons_append]
    rw [psb_backslash, pec_u, parseUEscape_bmp c.toNat h9 hrange,
      Char.ofNat_toNat]
  · -- surrogate-pair escape for characters above `U+FFFF`
    have hlt : c.toNat < 1114112 := by
      rcases hv with h | ⟨_, b⟩
      · omega
      · exact b
    have hge : 65536 ≤ c.toNat := by omega
    have hdivlt : (c.toNat - 65536) / 1024 < 1024 := by omega
    have hmodlt : (c.toNat - 65536) % 1024 < 1024 :=
      Nat.mod_lt _ (by omega)
    simp only [List.cons_append, List.append_assoc]
    rw [psb_backslash, pec_u,
      parseUEscape_surrogates (55296 + (c.toNat - 65536) / 1024)
        (56320 + (c.toNat - 65536) % 1024)
        (by omega) (by omega) (by omega) (by omega) tail]
    rw [show 65536 + (55296 + (c.toNat - 65536) / 1024 - 55296) * 1024 +
        (56320 + (c.toNat - 65536) % 1024 - 56320) = c.toNat from by
      have := Nat.div_add_mod (c.toNat - 65536) 1024
      omega]
    rw [Char.ofNat_toNat]
  · -- printable ASCII characters are emitted and consumed verbatim
    have h32 : ¬ c.toNat < 32 := by
      intro h
      exact h8 (Or.inl h)
    simp [parseStringBody, h1, h2, h32]

/-- The string-body parser inverts `escString`: it decodes the escaped body
and stops at the closing quote. -/
theorem parseStringBody_escString (cs : List Char) :
    ∀ fuel rest, cs.length + 1 ≤ fuel →
      parseStringBody fuel (escString cs ++ '"' :: rest) = some (cs, rest) := by
  induction cs with
  | nil =>
    intro fuel rest hf
    cases fuel with
    | zero => omega
    | succ f => simp [escString, parseStringBody]
  | cons c cs ih =>
    intro fuel rest hf
    cases fuel with
    | zero => simp at hf
    | succ f =>
      have hstep : escString (c :: cs) = escapeChar c ++ escString cs := by
        simp [escString]
      have hfc : cs.length + 1 ≤ f := by
        simp only [List.length_cons] at hf
        omega
      rw [hstep, List.append_assoc, parseStringBody_escapeChar,
        ih f rest hfc]
      rfl

/-- Escaping cannot shrink a string: at least one character per character. -/
theorem le_length_escString (cs : List Char) :
    cs.length ≤ (escString cs).length := by
  induction cs with
  | nil => simp [escString]
  | cons c cs ih =>
    have hstep : escString (c :: cs) = escapeChar c ++ escString cs := by
      simp [escString]
    have hpos : 1 ≤ (escapeChar c).length := by
      unfold escapeChar
      split_ifs <;> simp [hex4]
    rw [hstep]
    simp only [List.length_append, List.length_cons]
    omega

mutual

/-- Fuel needed by `parseValue` to traverse a value. -/
def jtotal : JsonValue → Nat
  | .str _ => 1
  | .num _ => 1
  | .flt _ => 1
  | .bool _ => 1
  | .null => 1
  | .arr elems => 1 + jtotalElems elems
  | .obj members => 1 + jtotalMembers members

/-- Fuel needed by `parseElems` for an element list. -/
def jtotalElems : List JsonValue → Nat
  | [] => 1
  | v :: vs => 1 + jtotal v + jtotalElems vs

/-- Fuel needed by `parseMembers` for a member list. -/
def jtotalMembers : List (String × JsonValue) → Nat
  | [] => 1
  | (_, v) :: ms => 1 + jtotal v + jtotalMembers ms

end

/-- Every value needs at least one unit of fuel. -/
theorem one_le_jtotal (v : JsonValue) : 1 ≤ jtotal v := by
  cases v <;> simp [jtotal]

mutual

/-- Values the encoder–decoder pair restores: every float leaf is
lossless, that is anything but a `NaN` (a `NaN` leaf decodes to a value
unequal to itself, because `nan == nan` is false). -/
def roundtripSafe : JsonValue → Bool
  | .str _ => true
  | .num _ => true
  | .flt f => f.lossless
  | .bool _ => true
  | .null => true
  | .arr es => roundtripSafeElems es
  | .obj ms => roundtripSafeMembers ms

/-- `roundtripSafe` over array elements. -/
def roundtripSafeElems : List JsonValue → Bool
  | [] => true
  | v :: vs => roundtripSafe v && roundtripSafeElems vs

/-- `roundtripSafe` over object members. -/
def roundtripSafeMembers : List (String × JsonValue) → Bool
  | [] => true
  | (_, v) :: ms => roundtripSafe v && roundtripSafeMembers ms

end

/-- A digit character is not whitespace and not one of the structural
characters the grammar branches on. -/
theorem digit_not_special (d : Char) (h : d.isDigit = true) :
    isWs d = false ∧ d ≠ '"' ∧ d ≠ '[' ∧ d ≠ '{' ∧ d ≠ '-' ∧
      d ≠ ']' ∧ d ≠ '}' ∧ d ≠ ',' ∧ d ≠ 't' ∧ d ≠ 'f' ∧ d ≠ 'n' ∧
      d ≠ 'I' ∧ d ≠ 'N' := by
  rw [isDigit_iff] at h
  refine ⟨?_, ?_, ?_, ?_, ?_, ?_, ?_, ?_, ?_, ?_, ?_, ?_, ?_⟩
  · simp only [isWs, Bool.decide_or, Bool.or_eq_false_iff,
      decide_eq_false_iff_not]
    refine ⟨?_, ?_, ?_, ?_⟩ <;> (intro he; subst he; exact absurd h (by decide))
  all_goals (intro he; subst he; exact absurd h (by decide))

/-- The first character of a rendered round-trip-safe value: never
whitespace, never a closing bracket. -/
theorem dumpsChars_head (v : JsonValue) (hsafe : roundtripSafe v = true) :
    ∃ c t, dumpsChars v = c :: t ∧ isWs c = false ∧ c ≠ ']' ∧ c ≠ '}' := by
  cases v with
  | flt f =>
    cases f with
    | inf =>
      exact ⟨'I', ['n', 'f', 'i', 'n', 'i', 't', 'y'],
        by simp [dumpsChars, floatStr], by decide, by decide, by decide⟩
    | neginf =>
      exact ⟨'-', ['I', 'n', 'f', 'i', 'n', 'i', 't', 'y'],
        by simp [dumpsChars, floatStr], by decide, by decide, by decide⟩
    | nan => simp [roundtripSafe, PyFloat.lossless] at hsafe
    | finite s m e =>
      by_cases hm : m = 0
      · subst hm
        cases s with
        | false =>
          exact ⟨'0', ['.', '0'], by simp [dumpsChars, floatStr],
            by decide, by decide, by decide⟩
        | true =>
          exact ⟨'-', ['0', '.', '0'], by simp [dumpsChars, floatStr],
            by decide, by decide, by decide⟩
      · obtain ⟨c, t, hfh, hcd⟩ := formatShort_head (shortestDigits m e).1
          (shortestDigits m e).2.1 (shortestDigits m e).2.2
        obtain ⟨hws, _, _, _, _, h6, h7, _, _, _, _, _, _⟩ :=
          digit_not_special c hcd
        cases s with
        | false =>
          refine ⟨c, t, ?_, hws, h6, h7⟩
          simp [dumpsChars, floatStr, hm, hfh]
        | true =>
          refine ⟨'-', c :: t, ?_, by decide, by decide, by decide⟩
          simp [dumpsChars, floatStr, hm, hfh]
  | str s =>
    exact ⟨'"', escString s.data ++ ['"'], by simp [dumpsChars], by decide,
      by decide, by decide⟩
  | num n =>
    by_cases hn : n < 0
    · exact ⟨'-', natToChars n.natAbs, by simp [dumpsChars, hn], by decide,
        by decide, by decide⟩
    · obtain ⟨d, t, hd, hdig⟩ := natToChars_head n.natAbs
      obtain ⟨hws, _, _, _, _, hne1, hne2, _⟩ := digit_not_special d hdig
      exact ⟨d, t, by simp [dumpsChars, hn, hd], hws, hne1, hne2⟩
  | bool b =>
    cases b with
    | true => exact ⟨'t', ['r', 'u', 'e'], by simp [dumpsChars], by decide,
        by decide, by decide⟩
    | false => exact ⟨'f', ['a', 'l', 's', 'e'], by simp [dumpsChars],
        by decide, by decide, by decide⟩
  | null =>
    exact ⟨'n', ['u', 'l', 'l'], by simp [dumpsChars], by decide, by decide,
      by decide⟩
  | arr elems =>
    exact ⟨'[', dumpsElems elems ++ [']'], by simp [dumpsChars], by decide,
      by decide, by decide⟩
  | obj members =>
    exact ⟨'{', dumpsMembers members ++ ['}'], by simp [dumpsChars],
      by decide, by decide, by decide⟩

/-- The first character of a rendered nonempty element list. -/
theorem dumpsElems_cons_head (v : JsonValue) (vs : List JsonValue)
    (hsafe : roundtripSafe v = true) :
    ∃ c t, dumpsElems (v :: vs) = c :: t ∧ isWs c = false ∧ c ≠ ']' ∧
      c ≠ '}' := by
  obtain ⟨c, t, hd, h1, h2, h3⟩ := dumpsChars_head v hsafe
  cases vs with
  | nil => exact ⟨c, t, by simp [dumpsElems, hd], h1, h2, h3⟩
  | cons w ws =>
    exact ⟨c, t ++ ',' :: ' ' :: dumpsElems (w :: ws),
      by simp [dumpsElems, hd], h1, h2, h3⟩

/-- A rendered nonempty member list starts with the quote of its first key. -/
theorem dumpsMembers_cons_head (k : String) (v : JsonValue)
    (ms : List (String × JsonValue)) :
    ∃ t, dumpsMembers ((k, v) :: ms) = '"' :: t := by
  cases ms with
  | nil =>
    exact ⟨escString k.data ++ '"' :: ':' :: ' ' :: dumpsChars v,
      by simp [dumpsMembers]⟩
  | cons m ms =>
    exact ⟨escString k.data ++ '"' :: ':' :: ' ' ::
        (dumpsChars v ++ ',' :: ' ' :: dumpsMembers (m :: ms)),
      by simp [dumpsMembers]⟩

/-- The three fuel-indexed parsers invert the three renderers on
round-trip-safe data: with enough fuel, after any run of whitespace, each
consumes exactly the rendering and returns the rendered data with the
untouched remainder. -/
theorem parse_dumps_combined (fuel : Nat) :
    (∀ v pre rest, jtotal v ≤ fuel → roundtripSafe v = true →
      (∀ c ∈ pre, isWs c = true) → noLeadDigit rest = true →
      parseValue fuel (pre ++ (dumpsChars v ++ rest)) = some (v, rest)) ∧
    (∀ (v : JsonValue) (vs : List JsonValue) pre rest,
      jtotalElems (v :: vs) ≤ fuel → roundtripSafeElems (v :: vs) = true →
      (∀ c ∈ pre, isWs c = true) →
      parseElems fuel (pre ++ (dumpsElems (v :: vs) ++ (']' :: rest))) =
        some (v :: vs, rest)) ∧
    (∀ (k : String) (v : JsonValue) (ms : List (String × JsonValue)) pre rest,
      jtotalMembers ((k, v) :: ms) ≤ fuel →
      roundtripSafeMembers ((k, v) :: ms) = true →
      (∀ c ∈ pre, isWs c = true) →
      parseMembers fuel
          (pre ++ (dumpsMembers ((k, v) :: ms) ++ ('\x7d' :: rest))) =
        some ((k, v) :: ms, rest)) := by
  induction fuel using Nat.strong_induction_on with
  | _ fuel ih =>
    refine ⟨?_, ?_, ?_⟩
    · intro v pre rest hf hsafe hpre hrest
      obtain ⟨f, rfl⟩ : ∃ f, fuel = f + 1 := by
        have := one_le_jtotal v
        exact ⟨fuel - 1, by omega⟩
      cases v with
      | str s =>
        have hdump : dumpsChars (.str s) = '"' :: (escString s.data ++ ['"']) := by
          simp [dumpsChars]
        rw [hdump]
        simp only [parseValue, List.cons_append, List.append_assoc,
          List.singleton_append]
        rw [skipWs_ws_append _ _ hpre, skipWs_cons_of_not_ws _ _ (by decide)]
        simp only [List.nil_append, reduceIte]
        have hb : s.data.length + 1 ≤
            (escString s.data ++ '"' :: rest).length + 1 := by
          have := le_length_escString s.data
          simp only [List.length_append, List.length_cons]
          omega
        rw [parseStringBody_escString s.data _ rest hb]
      | num n =>
        by_cases hn : n < 0
        · have hdump : dumpsChars (.num n) = '-' :: natToChars n.natAbs := by
            simp [dumpsChars, hn]
          obtain ⟨d, t, hd, hdig⟩ := natToChars_head n.natAbs
          obtain ⟨hws, hq, hlb, hlc, hmin, _, _, _, _, _, _, hI, hN⟩ :=
            digit_not_special d hdig
          rw [hdump]
          simp only [parseValue, List.cons_append]
          rw [skipWs_ws_append _ _ hpre, skipWs_cons_of_not_ws _ _ (by decide)]
          simp only [reduceIte]
          simp only [hd, List.cons_append]
          rw [if_neg hI]
          rw [show d :: (t ++ rest) = natToChars n.natAbs ++ rest from by
            rw [hd]
            simp]
          rw [parseNat_natToChars _ _ hrest]
          show some (parseNumberTail true n.natAbs rest) =
            some (JsonValue.num n, rest)
          rw [parseNumberTail_int true n.natAbs rest hrest]
          show some (JsonValue.num (-(n.natAbs : Int)), rest) =
            some (JsonValue.num n, rest)
          have hv : (-(n.natAbs : Int)) = n := by omega
          rw [hv]
        · have hdump : dumpsChars (.num n) = natToChars n.natAbs := by
            simp [dumpsChars, hn]
          obtain ⟨d, t, hd, hdig⟩ := natToChars_head n.natAbs
          obtain ⟨hws, hq, hlb, hlc, hmin, _, _, _, _, _, _, _, _⟩ :=
            digit_not_special d hdig
          rw [hdump, hd]
          simp only [parseValue, List.cons_append]
          rw [skipWs_ws_append _ _ hpre, skipWs_cons_of_not_ws _ _ hws]
          simp only [if_neg hq, if_neg hlb, if_neg hlc, if_neg hmin, hdig,
            reduceIte]
          rw [show d :: (t ++ rest) = natToChars n.natAbs ++ rest from by
            rw [hd]
            simp]
          rw [parseNat_natToChars _ _ hrest]
          show some (parseNumberTail false n.natAbs rest) =
            some (JsonValue.num n, rest)
          rw [parseNumberTail_int false n.natAbs rest hrest]
          show some (JsonValue.num ((n.natAbs : Int)), rest) =
            some (JsonValue.num n, rest)
          have hv : ((n.natAbs : Int)) = n := by omega
          rw [hv]
      | flt f2 =>
        cases f2 with
        | inf =>
          have hdump : dumpsChars (.flt .inf) =
              'I' :: ['n', 'f', 'i', 'n', 'i', 't', 'y'] := by
            simp [dumpsChars, floatStr]
          rw [hdump]
          simp only [parseValue, List.cons_append, List.nil_append]
          rw [skipWs_ws_append _ _ hpre, skipWs_cons_of_not_ws _ _ (by decide)]
          rfl
        | neginf =>
          have hdump : dumpsChars (.flt .neginf) =
              '-' :: 'I' :: ['n', 'f', 'i', 'n', 'i', 't', 'y'] := by
            simp [dumpsChars, floatStr]
          rw [hdump]
          simp only [parseValue, List.cons_append, List.nil_append]
          rw [skipWs_ws_append _ _ hpre, skipWs_cons_of_not_ws _ _ (by decide)]
          rfl
        | nan => simp [roundtripSafe, PyFloat.lossless] at hsafe
        | finite s m e =>
          have hcan : canonicalDouble m e = true := by
            simpa [roundtripSafe, PyFloat.lossless] using hsafe
          by_cases hm : m = 0
          · have he : e = 0 := by
              simp only [canonicalDouble, if_pos hm,
                decide_eq_true_eq] at hcan
              exact hcan
            subst hm
            subst he
            cases s with
            | false =>
              have hdump : dumpsChars (.flt (.finite false 0 0)) =
                  '0' :: '.' :: '0' :: [] := by simp [dumpsChars, floatStr]
              rw [hdump]
              simp only [parseValue, List.cons_append, List.nil_append]
              rw [skipWs_ws_append _ _ hpre,
                skipWs_cons_of_not_ws _ _ (by decide)]
              simp only [reduceIte]
              rw [show ('0' : Char) :: '.' :: '0' :: rest =
                ['0'] ++ ('.' :: (['0'] ++ rest)) from by simp]
              rw [parseNat_digits ['0'] ('.' :: (['0'] ++ rest)) (by decide)
                (by decide) rfl]
              show some (parseNumberTail false (digitsVal ['0'])
                  ('.' :: (['0'] ++ rest))) =
                some (.flt (.finite false 0 0), rest)
              rw [parseNumberTail_frac false _ ['0'] (by decide) (by decide)
                rest hrest]
              rw [show digitsVal ['0'] * 10 ^ (['0'] : List Char).length +
                digitsVal ['0'] = 0 from rfl]
              rw [decToDouble_zero]
            | true =>
              have hdump : dumpsChars (.flt (.finite true 0 0)) =
                  '-' :: '0' :: '.' :: '0' :: [] := by
                simp [dumpsChars, floatStr]
              rw [hdump]
              simp only [parseValue, List.cons_append, List.nil_append]
              rw [skipWs_ws_append _ _ hpre,
                skipWs_cons_of_not_ws _ _ (by decide)]
              simp only [reduceIte]
              rw [if_neg (show ¬ ('0' : Char) = 'I' from by decide)]
              rw [show ('0' : Char) :: '.' :: '0' :: rest =
                ['0'] ++ ('.' :: (['0'] ++ rest)) from by simp]
              rw [parseNat_digits ['0'] ('.' :: (['0'] ++ rest)) (by decide)
                (by decide) rfl]
              show some (parseNumberTail true (digitsVal ['0'])
                  ('.' :: (['0'] ++ rest))) =
                some (.flt (.finite true 0 0), rest)
              rw [parseNumberTail_frac true _ ['0'] (by decide) (by decide)
                rest hrest]
              rw [show digitsVal ['0'] * 10 ^ (['0'] : List Char).length +
                digitsVal ['0'] = 0 from rfl]
              rw [decToDouble_zero]
          · simp only [canonicalDouble, if_neg hm, Bool.and_eq_true,
              Bool.or_eq_true, decide_eq_true_eq] at hcan
            obtain ⟨hread, hlo, hhi, hn1⟩ := shortestDigits_rb m e
              (Nat.pos_of_ne_zero hm) hcan.1.1.1 hcan.2 hcan.1.1.2
              hcan.1.2
            obtain ⟨ip, tail, hpn, hpt⟩ := parseNat_formatShort
              (shortestDigits m e).1 (shortestDigits m e).2.1
              (shortestDigits m e).2.2 hlo hhi hn1 rest hrest
            obtain ⟨c, t, hfh, hcd⟩ := formatShort_head
              (shortestDigits m e).1 (shortestDigits m e).2.1
              (shortestDigits m e).2.2
            obtain ⟨hws, hq, hlb, hlc, hmin, _, _, _, _, _, _, hI, _⟩ :=
              digit_not_special c hcd
            cases s with
            | false =>
              have hdump : dumpsChars (.flt (.finite false m e)) =
                  formatShort (shortestDigits m e).1
                    (shortestDigits m e).2.1 (shortestDigits m e).2.2 := by
                simp [dumpsChars, floatStr, hm]
              rw [hdump, hfh]
              simp only [parseValue, List.cons_append]
              rw [skipWs_ws_append _ _ hpre, skipWs_cons_of_not_ws _ _ hws]
              simp only [if_neg hq, if_neg hlb, if_neg hlc, if_neg hmin,
                hcd, reduceIte]
              rw [show c :: (t ++ rest) =
                formatShort (shortestDigits m e).1 (shortestDigits m e).2.1
                  (shortestDigits m e).2.2 ++ rest from by
                rw [hfh]
                simp]
              rw [hpn]
              show some (parseNumberTail false ip tail) =
                some (.flt (.finite false m e), rest)
              rw [hpt false, hread]
            | true =>
              have hdump : dumpsChars (.flt (.finite true m e)) =
                  '-' :: formatShort (shortestDigits m e).1
                    (shortestDigits m e).2.1 (shortestDigits m e).2.2 := by
                simp [dumpsChars, floatStr, hm]
              rw [hdump, hfh]
              simp only [parseValue, List.cons_append]
              rw [skipWs_ws_append _ _ hpre,
                skipWs_cons_of_not_ws _ _ (by decide)]
              simp only [reduceIte]
              rw [if_neg hI]
              rw [show c :: (t ++ rest) =
                formatShort (shortestDigits m e).1 (shortestDigits m e).2.1
                  (shortestDigits m e).2.2 ++ rest from by
                rw [hfh]
                simp]
              rw [hpn]
              show some (parseNumberTail true ip tail) =
                some (.flt (.finite true m e), rest)
              rw [hpt true, decToDouble_sign true _ _ m e hread]
      | bool b =>
        cases b with
        | false =>
          have hdump : dumpsChars (.bool false) = ['f', 'a', 'l', 's', 'e'] := by
            simp [dumpsChars]
          rw [hdump]
          simp only [parseValue, List.cons_append, List.nil_append]
          rw [skipWs_ws_append _ _ hpre, skipWs_cons_of_not_ws _ _ (by decide)]
          rfl
        | true =>
          have hdump : dumpsChars (.bool true) = ['t', 'r', 'u', 'e'] := by
            simp [dumpsChars]
          rw [hdump]
          simp only [parseValue, List.cons_append, List.nil_append]
          rw [skipWs_ws_append _ _ hpre, skipWs_cons_of_not_ws _ _ (by decide)]
          rfl
      | null =>
        have hdump : dumpsChars .null = ['n', 'u', 'l', 'l'] := by
          simp [dumpsChars]
        rw [hdump]
        simp only [parseValue, List.cons_append, List.nil_append]
        rw [skipWs_ws_append _ _ hpre, skipWs_cons_of_not_ws _ _ (by decide)]
        rfl
      | arr elems =>
        have hdump : dumpsChars (.arr elems) =
            '[' :: (dumpsElems elems ++ [']']) := by
          simp [dumpsChars]
        rw [hdump]
        simp only [parseValue, List.cons_append, List.append_assoc,
          List.singleton_append]
        rw [skipWs_ws_append _ _ hpre, skipWs_cons_of_not_ws _ _ (by decide)]
        cases elems with
        | nil =>
          simp only [dumpsElems, List.nil_append]
          rfl
        | cons v vs =>
          have hsafeE : roundtripSafeElems (v :: vs) = true := by
            simpa [roundtripSafe] using hsafe
          have hsv : roundtripSafe v = true := by
            simp only [roundtripSafeElems, Bool.and_eq_true] at hsafeE
            exact hsafeE.1
          obtain ⟨c, t, hd, hws, hne1, hne2⟩ := dumpsElems_cons_head v vs hsv
          rw [hd]
          simp only [List.cons_append]
          simp only [reduceIte]
          rw [skipWs_cons_of_not_ws _ _ hws]
          simp only [if_neg hne1, List.nil_append]
          have hb : jtotalElems (v :: vs) ≤ f := by
            simp only [jtotal] at hf
            omega
          have hIH := (ih f (by omega)).2.1 v vs [] rest hb hsafeE (by simp)
          simp only [List.nil_append, hd, List.cons_append] at hIH
          rw [if_neg (show ¬ ('[' : Char) = '"' from by decide), hIH]
      | obj members =>
        have hdump : dumpsChars (.obj members) =
            '\x7b' :: (dumpsMembers members ++ ['\x7d']) := by
          simp [dumpsChars]
        rw [hdump]
        simp only [parseValue, List.cons_append, List.append_assoc,
          List.singleton_append]
        rw [skipWs_ws_append _ _ hpre, skipWs_cons_of_not_ws _ _ (by decide)]
        cases members with
        | nil =>
          simp only [dumpsMembers, List.nil_append]
          rfl
        | cons m ms =>
          obtain ⟨k, v⟩ := m
          have hsafeM : roundtripSafeMembers ((k, v) :: ms) = true := by
            simpa [roundtripSafe] using hsafe
          obtain ⟨t, hd⟩ := dumpsMembers_cons_head k v ms
          rw [hd]
          simp only [List.cons_append]
          simp only [reduceIte]
          rw [skipWs_cons_of_not_ws _ _ (by decide)]
          simp only [if_neg (show ¬ ('"' : Char) = '\x7d' from by decide),
            List.nil_append]
          have hb : jtotalMembers ((k, v) :: ms) ≤ f := by
            simp only [jtotal] at hf
            omega
          have hIH := (ih f (by omega)).2.2 k v ms [] rest hb hsafeM (by simp)
          simp only [List.nil_append, hd, List.cons_append] at hIH
          rw [if_neg (show ¬ ('\x7b' : Char) = '"' from by decide), hIH,
            if_neg (show ¬ ('\x7b' : Char) = '[' from by decide)]

    · intro v vs pre rest hf hsafe hpre
      have hparts := hsafe
      simp only [roundtripSafeElems, Bool.and_eq_true] at hparts
      obtain ⟨hsv, hsvs⟩ := hparts
      obtain ⟨f, rfl⟩ : ∃ f, fuel = f + 1 := by
        refine ⟨fuel - 1, ?_⟩
        simp only [jtotalElems] at hf
        omega
      simp only [parseElems]
      cases vs with
      | nil =>
        have hde : dumpsElems [v] = dumpsChars v := by simp [dumpsElems]
        have hv := (ih f (by omega)).1 v pre (']' :: rest) (by
          simp only [jtotalElems] at hf
          omega) hsv hpre rfl
        rw [hde, hv]
        simp only [skipWs_rbracket, reduceIte]
        rw [if_neg (show ¬ (']' : Char) = ',' from by decide)]
      | cons w ws =>
        have hde : dumpsElems (v :: w :: ws) =
            dumpsChars v ++ ',' :: ' ' :: dumpsElems (w :: ws) := by
          simp [dumpsElems]
        rw [hde]
        simp only [List.append_assoc, List.cons_append]
        have h1v := one_le_jtotal v
        have hv := (ih f (by omega)).1 v pre
          (',' :: ' ' :: (dumpsElems (w :: ws) ++ ']' :: rest)) (by
            simp only [jtotalElems] at hf
            omega) hsv hpre rfl
        rw [hv]
        simp only [skipWs_comma, reduceIte]
        have hIH := (ih f (by omega)).2.1 w ws [' '] rest (by
          simp only [jtotalElems] at hf ⊢
          omega) hsvs (by decide)
        simp only [List.singleton_append, List.cons_append, List.nil_append]
          at hIH
        rw [hIH]
    · intro k v ms pre rest hf hsafe hpre
      have hparts := hsafe
      simp only [roundtripSafeMembers, Bool.and_eq_true] at hparts
      obtain ⟨hsv, hsms⟩ := hparts
      obtain ⟨f, rfl⟩ : ∃ f, fuel = f + 1 := by
        refine ⟨fuel - 1, ?_⟩
        simp only [jtotalMembers] at hf
        omega
      simp only [parseMembers]
      cases ms with
      | nil =>
        have hdm : dumpsMembers [(k, v)] =
            '"' :: escString k.data ++ '"' :: ':' :: ' ' :: dumpsChars v := by
          simp [dumpsMembers]
        rw [hdm]
        simp only [List.cons_append, List.append_assoc, List.nil_append]
        rw [skipWs_ws_append _ _ hpre, skipWs_cons_of_not_ws _ _ (by decide)]
        have hlen : k.data.length + 1 ≤
            (escString k.data ++
              '"' :: ':' :: ' ' :: (dumpsChars v ++ '\x7d' :: rest)).length + 1 := by
          have := le_length_escString k.data
          simp only [List.length_append, List.length_cons]
          omega
        have hpsb := parseStringBody_escString k.data _
          (':' :: ' ' :: (dumpsChars v ++ '\x7d' :: rest)) hlen
        simp only [hpsb, skipWs_colon, reduceIte]
        have h1v := one_le_jtotal v
        have hv := (ih f (by omega)).1 v [' '] ('\x7d' :: rest) (by
          simp only [jtotalMembers] at hf
          omega) hsv (by decide) rfl
        simp only [List.singleton_append] at hv
        rw [hv]
        simp only [skipWs_rbrace, reduceIte]
        rw [if_neg (show ¬ ('\x7d' : Char) = ',' from by decide)]
      | cons m2 ms2 =>
        obtain ⟨k2, v2⟩ := m2
        have hdm : dumpsMembers ((k, v) :: (k2, v2) :: ms2) =
            '"' :: escString k.data ++ '"' :: ':' :: ' ' :: dumpsChars v ++
              ',' :: ' ' :: dumpsMembers ((k2, v2) :: ms2) := by
          simp [dumpsMembers]
        rw [hdm]
        simp only [List.cons_append, List.append_assoc, List.nil_append]
        rw [skipWs_ws_append _ _ hpre, skipWs_cons_of_not_ws _ _ (by decide)]
        have hlen : k.data.length + 1 ≤
            (escString k.data ++ '"' :: ':' :: ' ' :: (dumpsChars v ++
              ',' :: ' ' :: (dumpsMembers ((k2, v2) :: ms2) ++
                '\x7d' :: rest))).length + 1 := by
          have := le_length_escString k.data
          simp only [List.length_append, List.length_cons]
          omega
        have hpsb := parseStringBody_escString k.data _
          (':' :: ' ' :: (dumpsChars v ++ ',' :: ' ' ::
            (dumpsMembers ((k2, v2) :: ms2) ++ '\x7d' :: rest))) hlen
        simp only [hpsb, skipWs_colon, reduceIte]
        have h1v := one_le_jtotal v
        have hv := (ih f (by omega)).1 v [' ']
          (',' :: ' ' :: (dumpsMembers ((k2, v2) :: ms2) ++ '\x7d' :: rest)) (by
            simp only [jtotalMembers] at hf
            omega) hsv (by decide) rfl
        simp only [List.singleton_append] at hv
        rw [hv]
        simp only [skipWs_comma, reduceIte]
        have hIH := (ih f (by omega)).2.2 k2 v2 ms2 [' '] rest (by
          simp only [jtotalMembers] at hf ⊢
          omega) hsms (by decide)
        simp only [List.singleton_append] at hIH
        rw [hIH]

/-- The value parser inverts the renderer on round-trip-safe values. -/
theorem parse_dumps (v : JsonValue) (fuel : Nat) (rest : List Char)
    (hf : jtotal v ≤ fuel) (hsafe : roundtripSafe v = true)
    (hrest : noLeadDigit rest = true) :
    parseValue fuel (dumpsChars v ++ rest) = some (v, rest) := by
  have h := (parse_dumps_combined fuel).1 v [] rest hf hsafe (by simp) hrest
  simpa using h

/-- The fuel budget `loads` allots — twice the input length plus one — is
enough to traverse any rendered value. -/
theorem jtotal_le_combined (N : Nat) :
    (∀ v : JsonValue, sizeOf v ≤ N → roundtripSafe v = true →
      jtotal v ≤ 2 * (dumpsChars v).length) ∧
    (∀ l : List JsonValue, sizeOf l ≤ N → roundtripSafeElems l = true →
      jtotalElems l ≤ 2 * (dumpsElems l).length + 2) ∧
    (∀ ms : List (String × JsonValue), sizeOf ms ≤ N →
      roundtripSafeMembers ms = true →
      jtotalMembers ms ≤ 2 * (dumpsMembers ms).length + 2) := by
  induction N using Nat.strong_induction_on with
  | _ N ih =>
    refine ⟨?_, ?_, ?_⟩
    · intro v hs hsafe
      cases v with
      | flt f =>
        cases f with
        | inf =>
          simp only [jtotal, dumpsChars, floatStr, List.length_cons,
            List.length_nil]
          omega
        | neginf =>
          simp only [jtotal, dumpsChars, floatStr, List.length_cons,
            List.length_nil]
          omega
        | nan => simp [roundtripSafe, PyFloat.lossless] at hsafe
        | finite s m e =>
          by_cases hm : m = 0
          · subst hm
            cases s <;> simp [jtotal, dumpsChars, floatStr]
          · obtain ⟨c, t, hfh, _⟩ := formatShort_head
              (shortestDigits m e).1 (shortestDigits m e).2.1
              (shortestDigits m e).2.2
            simp only [jtotal, dumpsChars, floatStr, if_neg hm, hfh]
            cases s <;> simp <;> omega
      | str s =>
        simp only [jtotal, dumpsChars, List.length_cons, List.length_append]
        omega
      | num n =>
        have hne := natToChars_ne_nil n.natAbs
        have hl : 1 ≤ (natToChars n.natAbs).length := by
          cases hnc : natToChars n.natAbs with
          | nil => exact absurd hnc hne
          | cons a t => simp
        by_cases hn : n < 0 <;>
          simp only [jtotal, dumpsChars, hn, if_pos, if_neg,
            List.length_cons, Bool.false_eq_true, if_false, if_true] <;>
          omega
      | bool b => cases b <;> simp [jtotal, dumpsChars]
      | null => simp [jtotal, dumpsChars]
      | arr elems =>
        have hse : sizeOf elems < N := by
          have hss : sizeOf (JsonValue.arr elems) = 1 + sizeOf elems := by
            simp
          omega
        have h2 := (ih (sizeOf elems) hse).2.1 elems le_rfl
          (by simpa [roundtripSafe] using hsafe)
        simp only [jtotal, dumpsChars, List.length_cons, List.length_append,
          List.length_nil]
        omega
      | obj members =>
        have hse : sizeOf members < N := by
          have hss : sizeOf (JsonValue.obj members) = 1 + sizeOf members := by
            simp
          omega
        have h2 := (ih (sizeOf members) hse).2.2 members le_rfl
          (by simpa [roundtripSafe] using hsafe)
        simp only [jtotal, dumpsChars, List.length_cons, List.length_append,
          List.length_nil]
        omega
    · intro l hs hsafe
      cases l with
      | nil => simp [jtotalElems, dumpsElems]
      | cons v vs =>
        have hsparts := hsafe
        simp only [roundtripSafeElems, Bool.and_eq_true] at hsparts
        have hsv : sizeOf v < N := by
          have hss : sizeOf (v :: vs) = 1 + sizeOf v + sizeOf vs := by simp
          have : 0 < sizeOf vs := by cases vs <;> simp
          omega
        have h1 := (ih (sizeOf v) hsv).1 v le_rfl hsparts.1
        cases vs with
        | nil =>
          simp only [jtotalElems, dumpsElems]
          omega
        | cons w ws =>
          have hsws : sizeOf (w :: ws) < N := by
            have hss : sizeOf (v :: w :: ws) =
                1 + sizeOf v + sizeOf (w :: ws) := by simp
            have : 0 < sizeOf v := by cases v <;> simp
            omega
          have h2 := (ih (sizeOf (w :: ws)) hsws).2.1 (w :: ws) le_rfl
            hsparts.2
          simp only [jtotalElems, dumpsElems, List.length_append,
            List.length_cons] at h2 ⊢
          omega
    · intro ms hs hsafe
      cases ms with
      | nil => simp [jtotalMembers, dumpsMembers]
      | cons m ms2 =>
        obtain ⟨k, v⟩ := m
        have hsparts := hsafe
        simp only [roundtripSafeMembers, Bool.and_eq_true] at hsparts
        have hsv : sizeOf v < N := by
          have hss : sizeOf ((k, v) :: ms2) =
              1 + (1 + sizeOf k + sizeOf v) + sizeOf ms2 := by simp
          have : 0 < sizeOf ms2 := by cases ms2 <;> simp
          omega
        have h1 := (ih (sizeOf v) hsv).1 v le_rfl hsparts.1
        cases ms2 with
        | nil =>
          simp only [jtotalMembers, dumpsMembers, List.length_cons,
            List.length_append]
          omega
        | cons m2 ms3 =>
          have hsms : sizeOf (m2 :: ms3) < N := by
            have hss : sizeOf ((k, v) :: m2 :: ms3) =
                1 + (1 + sizeOf k + sizeOf v) + sizeOf (m2 :: ms3) := by simp
            have : 0 < sizeOf v := by cases v <;> simp
            omega
          have h2 := (ih (sizeOf (m2 :: ms3)) hsms).2.2 (m2 :: ms3) le_rfl
            hsparts.2
          obtain ⟨k2, v2⟩ := m2
          simp only [jtotalMembers, dumpsMembers, List.length_append,
            List.length_cons] at h2 ⊢
          omega

/-- C9 (amended): serialization round-trips on the NaN-free fragment —
decoding the canonical encoding of a supported tool-result value built
from strings, integers, every float except `nan` (finite values in
canonical binary64 form, plus the two infinities), booleans, null, arrays
and nested mappings yields the value back.  (The unrestricted claim is
false: a `NaN` payload decodes to a value unequal to the original, see
the counterexample.) -/
theorem loads_dumps (v : JsonValue) (hsafe : roundtripSafe v = true) :
    loads (dumps v) = some v := by
  have hlen : jtotal v ≤ 2 * (dumpsChars v).length + 1 := by
    have := (jtotal_le_combined (sizeOf v)).1 v le_rfl hsafe
    omega
  have h := parse_dumps v (2 * (dumpsChars v).length + 1) [] hlen hsafe rfl
  simp only [List.append_nil] at h
  simp only [loads, dumps]
  rw [h]
  rfl

/-- C9 witness: the amended round-trip theorem applied to a concrete
nested value holding string keys, an integer, the float `12.5` (the
amount of the spec scenario, `12.5 = 7036874417766400·2^(-49)`), an
`Infinity`, an array, a boolean and a null. -/
theorem loads_dumps_witness :
    roundtripSafe (JsonValue.obj [("amount",
        JsonValue.flt (PyFloat.finite false 7036874417766400 (-49))),
      ("count", JsonValue.num 12),
      ("rate", JsonValue.flt PyFloat.inf),
      ("tags", JsonValue.arr [JsonValue.str "a", JsonValue.bool true,
        JsonValue.null])]) = true ∧
    loads (dumps (JsonValue.obj [("amount",
        JsonValue.flt (PyFloat.finite false 7036874417766400 (-49))),
      ("count", JsonValue.num 12),
      ("rate", JsonValue.flt PyFloat.inf),
      ("tags", JsonValue.arr [JsonValue.str "a", JsonValue.bool true,
        JsonValue.null])])) =
      some (JsonValue.obj [("amount",
          JsonValue.flt (PyFloat.finite false 7036874417766400 (-49))),
        ("count", JsonValue.num 12),
        ("rate", JsonValue.flt PyFloat.inf),
        ("tags", JsonValue.arr [JsonValue.str "a", JsonValue.bool true,
          JsonValue.null])]) :=
  ⟨by decide, loads_dumps _ (by decide)⟩

/-- C9 counterexample: the round-trip is not value-preserving on every
supported tool result — `json.dumps` renders the float `nan` as the
constant `NaN` (the default `allow_nan=True`), `json.loads` reads that
text back as a fresh `nan`, and the decoded value is not equal to the
original, because `nan == nan` is false in Python.  (src/app.py line 121
serializes whatever value the tool returned, floats included.) -/
theorem nan_roundtrip_cex :
    dumps (JsonValue.flt PyFloat.nan) = "NaN" ∧
    loads (dumps (JsonValue.flt PyFloat.nan)) =
      some (JsonValue.flt PyFloat.nan) ∧
    PyFloat.nan.pyEq PyFloat.nan = false :=
  ⟨rfl, rfl, rfl⟩

end json

/-- Tool arguments as delivered in a tool-call request: either the
structured mapping langchain normally supplies or a raw text blob (the
two-variant representation of spec section 4.3). -/
inductive ToolArgs where
  | structured (m : List (String × JsonValue))
  | raw (text : String)

/-- One tool-call request of a model response (`tc` in the loop of
src/app.py lines 115-122): correlation id, tool name and arguments. -/
structure ToolCallRequest where
  id : String
  name : String
  args : ToolArgs

/-- The content and tool-call requests of a model response
(`langchain_core.messages.AIMessage`). -/
structure AIMessage where
  content : String
  tool_calls : List ToolCallRequest

/-- One entry of `st.session_state.history`: the four
`langchain_core.messages` variants used by src/app.py. -/
inductive Message where
  | system (content : String)
  | human (content : String)
  | ai (msg : AIMessage)
  | tool (tool_call_id : String) (content : String)

/-- A discovered MCP tool: its name and its `ainvoke` behaviour; an
exception during invocation is modelled as `Except.error`. -/
structure Tool where
  name : String
  ainvoke : ToolArgs → Except String JsonValue

/-- A Python exception that aborts a turn of src/app.py: an error raised by
a model call, the `KeyError` of the `tool_by_name[...]` lookup, or an
exception raised by a tool. -/
inductive TurnError where
  | modelError (msg : String)
  | keyError (name : String)
  | toolError (msg : String)

/-- The session and process state the per-turn handler can see: the
append-only `st.session_state.history`, the `st.session_state.tool_by_name`
lookup table, and the cached resources of `get_mcp_resources` (the tool
list and the two model clients; the MCP client itself is an I/O handle with
no behaviour visible to the handler). -/
structure AppState where
  history : List Message
  tool_by_name : String → Option Tool
  tools : List Tool
  llm : List Message → Except String AIMessage
  llm_with_tools : List Message → Except String AIMessage

/-- The system prompt of src/app.py line 33. -/
def SYSTEM_PROMPT : String :=
  "You are a helpful assistant with tool access. Be concise."

/-- Session-state seeding (src/app.py lines 88-90): the history starts with
the system prompt, and the name-to-tool dictionary is built from the tool
list (later duplicates win, as in a Python dict comprehension). -/
def initState (tools : List Tool)
    (llm llm_with_tools : List Message → Except String AIMessage) : AppState :=
  { history := [Message.system SYSTEM_PROMPT]
    tool_by_name := fun n => tools.reverse.find? (fun t => t.name == n)
    tools := tools
    llm := llm
    llm_with_tools := llm_with_tools }

/-- Outcome of the tool loop of src/app.py lines 115-122 on one batch: the
`ToolMessage`s appended, the invocations performed (tool name and the
arguments passed to `ainvoke`), and the exception that aborted the loop, if
any.  On an exception the messages already appended stay, mirroring
`st.session_state` across an aborted rerun. -/
structure ExecResult where
  msgs : List Message
  invocations : List (String × ToolArgs)
  err : Option TurnError

/-- The tool loop of src/app.py lines 115-122: look each request's name up
in `tool_by_name` (a missing name raises `KeyError`), invoke the tool on
the request's arguments exactly as they arrived, and append a `ToolMessage`
whose `tool_call_id` is the request's id and whose content is
`json.dumps(result)`. -/
def execToolCalls (tool_by_name : String → Option Tool) :
    List ToolCallRequest → ExecResult
  | [] => ⟨[], [], none⟩
  | tc :: rest =>
    match tool_by_name tc.name with
    | none => ⟨[], [], some (.keyError tc.name)⟩
    | some tool =>
      match tool.ainvoke tc.args with
      | .error e => ⟨[], [(tc.name, tc.args)], some (.toolError e)⟩
      | .ok result =>
        let r := execToolCalls tool_by_name rest
        ⟨Message.tool tc.id (json.dumps result) :: r.msgs,
          (tc.name, tc.args) :: r.invocations, r.err⟩

/-- What one run of the per-turn handler produces: the updated state, the
assistant content displayed at src/app.py line 129 (none if an exception
aborted the turn), the tool invocations performed, and the exception, if
any. -/
structure TurnResult where
  state : AppState
  displayed : Option String
  invocations : List (String × ToolArgs)
  err : Option TurnError

/-- The second model pass (src/app.py lines 125-126): `llm.ainvoke` without
bound tools on the history that already holds every tool result, then
append its response. -/
def secondModelCall (s : AppState) (hist3 : List Message)
    (invs : List (String × ToolArgs)) : TurnResult :=
  match s.llm hist3 with
  | .error e => ⟨{ s with history := hist3 }, none, invs, some (.modelError e)⟩
  | .ok response2 =>
    ⟨{ s with history := hist3 ++ [Message.ai response2] },
      some response2.content, invs, none⟩

/-- One user turn of src/app.py lines 104-129: append the `HumanMessage`,
call `llm_with_tools.ainvoke` and append its response; if that response
carries tool calls, run the tool loop and, when it finishes without an
exception, make the second model call; finally display the last response's
content.  An exception leaves every append made so far in the session
state. -/
def handleTurn (s : AppState) (user_text : String) : TurnResult :=
  let hist1 := s.history ++ [Message.human user_text]
  match s.llm_with_tools hist1 with
  | .error e => ⟨{ s with history := hist1 }, none, [], some (.modelError e)⟩
  | .ok response =>
    let hist2 := hist1 ++ [Message.ai response]
    if response.tool_calls.isEmpty then
      ⟨{ s with history := hist2 }, some response.content, [], none⟩
    else
      let ex := execToolCalls s.tool_by_name response.tool_calls
      match ex.err with
      | some e =>
        ⟨{ s with history := hist2 ++ ex.msgs }, none, ex.invocations, some e⟩
      | none => secondModelCall s (hist2 ++ ex.msgs) ex.invocations

/-- A whole session: fold the per-turn handler over the user's successive
messages, starting from a given state. -/
def runSession (s : AppState) : List String → AppState
  | [] => s
  | u :: us => runSession (handleTurn s u).state us

/-- The `tool_call_id`s of the ToolMessages in a list, in order. -/
def toolIds (ms : List Message) : List String :=
  ms.filterMap fun m =>
    match m with
    | .tool i _ => some i
    | _ => none

/-- Recognize a SystemMessage. -/
def isSystemMsg : Message → Bool
  | .system _ => true
  | _ => false

/-- One-step equation: a model error in the first pass. -/
theorem handleTurn_eq_error (s : AppState) (u : String) (e : String)
    (h : s.llm_with_tools (s.history ++ [Message.human u]) = .error e) :
    handleTurn s u =
      ⟨{ s with history := s.history ++ [Message.human u] }, none, [],
        some (.modelError e)⟩ := by
  simp only [handleTurn, h]

/-- One-step equation: a first pass that requests no tools. -/
theorem handleTurn_eq_plain (s : AppState) (u : String) (r : AIMessage)
    (h : s.llm_with_tools (s.history ++ [Message.human u]) = .ok r)
    (hempty : r.tool_calls = []) :
    handleTurn s u =
      ⟨{ s with history := s.history ++ [Message.human u, Message.ai r] },
        some r.content, [], none⟩ := by
  simp [handleTurn, h, hempty]

/-- One-step equation: the tool loop raises. -/
theorem handleTurn_eq_toolerr (s : AppState) (u : String) (r : AIMessage)
    (e : TurnError)
    (h : s.llm_with_tools (s.history ++ [Message.human u]) = .ok r)
    (herr : (execToolCalls s.tool_by_name r.tool_calls).err = some e) :
    handleTurn s u =
      ⟨{ s with history := s.history ++ [Message.human u, Message.ai r] ++
          (execToolCalls s.tool_by_name r.tool_calls).msgs }, none,
        (execToolCalls s.tool_by_name r.tool_calls).invocations, some e⟩ := by
  have hne : r.tool_calls.isEmpty = false := by
    cases hc : r.tool_calls with
    | nil => rw [hc] at herr; simp [execToolCalls] at herr
    | cons a t => rfl
  simp [handleTurn, h, hne, herr]

/-- One-step equation: the tool loop succeeds and the second pass runs. -/
theorem handleTurn_eq_secondpass (s : AppState) (u : String) (r : AIMessage)
    (h : s.llm_with_tools (s.history ++ [Message.human u]) = .ok r)
    (hne : r.tool_calls ≠ [])
    (herr : (execToolCalls s.tool_by_name r.tool_calls).err = none) :
    handleTurn s u =
      secondModelCall s
        (s.history ++ [Message.human u, Message.ai r] ++
          (execToolCalls s.tool_by_name r.tool_calls).msgs)
        (execToolCalls s.tool_by_name r.tool_calls).invocations := by
  have hne2 : r.tool_calls.isEmpty = false := by
    cases hc : r.tool_calls with
    | nil => exact absurd hc hne
    | cons a t => rfl
  simp [handleTurn, h, hne2, herr]

/-- A missing tool name raises a `KeyError` at the head of the loop. -/
theorem execToolCalls_keyError (tb : String → Option Tool)
    (tc : ToolCallRequest) (rest : List ToolCallRequest)
    (h : tb tc.name = none) :
    execToolCalls tb (tc :: rest) = ⟨[], [], some (.keyError tc.name)⟩ := by
  simp [execToolCalls, h]

/-- A raising tool invocation aborts the loop at its request. -/
theorem execToolCalls_toolError (tb : String → Option Tool)
    (tc : ToolCallRequest) (rest : List ToolCallRequest) (tool : Tool)
    (e : String) (h : tb tc.name = some tool)
    (hinv : tool.ainvoke tc.args = .error e) :
    execToolCalls tb (tc :: rest) =
      ⟨[], [(tc.name, tc.args)], some (.toolError e)⟩ := by
  simp [execToolCalls, h, hinv]

/-- When the loop finishes without an exception it has produced one
ToolMessage per request, carrying the request ids in order. -/
theorem execToolCalls_ok_shape (tb : String → Option Tool) :
    ∀ tcs : List ToolCallRequest, (execToolCalls tb tcs).err = none →
      (execToolCalls tb tcs).msgs.length = tcs.length ∧
      toolIds (execToolCalls tb tcs).msgs = tcs.map ToolCallRequest.id := by
  intro tcs
  induction tcs with
  | nil => intro h; exact ⟨rfl, rfl⟩
  | cons tc rest ih =>
    intro h
    cases htb : tb tc.name with
    | none =>
      rw [execToolCalls_keyError tb tc rest htb] at h
      exact absurd h (by simp)
    | some tool =>
      cases hinv : tool.ainvoke tc.args with
      | error e =>
        rw [execToolCalls_toolError tb tc rest tool e htb hinv] at h
        exact absurd h (by simp)
      | ok result =>
        have hstep : execToolCalls tb (tc :: rest) =
            ⟨Message.tool tc.id (json.dumps result) ::
               (execToolCalls tb rest).msgs,
              (tc.name, tc.args) :: (execToolCalls tb rest).invocations,
              (execToolCalls tb rest).err⟩ := by
          simp [execToolCalls, htb, hinv]
        rw [hstep] at h ⊢
        obtain ⟨h1, h2⟩ := ih h
        refine ⟨?_, ?_⟩
        · simp [h1]
        · simp [toolIds] at h2 ⊢
          exact h2

/-- The ids of the ToolMessages the loop produced are always an initial
segment of the request ids, in request order. -/
theorem execToolCalls_ids_take (tb : String → Option Tool) :
    ∀ tcs : List ToolCallRequest, ∃ k,
      toolIds (execToolCalls tb tcs).msgs =
        (tcs.map ToolCallRequest.id).take k := by
  intro tcs
  induction tcs with
  | nil => exact ⟨0, rfl⟩
  | cons tc rest ih =>
    cases htb : tb tc.name with
    | none =>
      rw [execToolCalls_keyError tb tc rest htb]
      exact ⟨0, rfl⟩
    | some tool =>
      cases hinv : tool.ainvoke tc.args with
      | error e =>
        rw [execToolCalls_toolError tb tc rest tool e htb hinv]
        exact ⟨0, rfl⟩
      | ok result =>
        have hstep : execToolCalls tb (tc :: rest) =
            ⟨Message.tool tc.id (json.dumps result) ::
               (execToolCalls tb rest).msgs,
              (tc.name, tc.args) :: (execToolCalls tb rest).invocations,
              (execToolCalls tb rest).err⟩ := by
          simp [execToolCalls, htb, hinv]
        rw [hstep]
        obtain ⟨k, hk⟩ := ih
        refine ⟨k + 1, ?_⟩
        simp [toolIds] at hk ⊢
        exact hk

/-- The invocations the loop performed are always an initial segment of the
requests' (name, arguments) pairs, the arguments exactly as they arrived. -/
theorem execToolCalls_inv_take (tb : String → Option Tool) :
    ∀ tcs : List ToolCallRequest, ∃ k,
      (execToolCalls tb tcs).invocations =
        (tcs.map fun tc => (tc.name, tc.args)).take k := by
  intro tcs
  induction tcs with
  | nil => exact ⟨0, rfl⟩
  | cons tc rest ih =>
    cases htb : tb tc.name with
    | none =>
      rw [execToolCalls_keyError tb tc rest htb]
      exact ⟨0, rfl⟩
    | some tool =>
      cases hinv : tool.ainvoke tc.args with
      | error e =>
        rw [execToolCalls_toolError tb tc rest tool e htb hinv]
        exact ⟨1, rfl⟩
      | ok result =>
        have hstep : execToolCalls tb (tc :: rest) =
            ⟨Message.tool tc.id (json.dumps result) ::
               (execToolCalls tb rest).msgs,
              (tc.name, tc.args) :: (execToolCalls tb rest).invocations,
              (execToolCalls tb rest).err⟩ := by
          simp [execToolCalls, htb, hinv]
        rw [hstep]
        obtain ⟨k, hk⟩ := ih
        exact ⟨k + 1, by simp [hk]⟩

/-- The loop appends only ToolMessages, never a SystemMessage. -/
theorem execToolCalls_msgs_not_system (tb : String → Option Tool) :
    ∀ tcs : List ToolCallRequest,
      ∀ m ∈ (execToolCalls tb tcs).msgs, isSystemMsg m = false := by
  intro tcs
  induction tcs with
  | nil => intro m hm; simp [execToolCalls] at hm
  | cons tc rest ih =>
    intro m hm
    cases htb : tb tc.name with
    | none =>
      rw [execToolCalls_keyError tb tc rest htb] at hm
      simp at hm
    | some tool =>
      cases hinv : tool.ainvoke tc.args with
      | error e =>
        rw [execToolCalls_toolError tb tc rest tool e htb hinv] at hm
        simp at hm
      | ok result =>
        have hstep : execToolCalls tb (tc :: rest) =
            ⟨Message.tool tc.id (json.dumps result) ::
               (execToolCalls tb rest).msgs,
              (tc.name, tc.args) :: (execToolCalls tb rest).invocations,
              (execToolCalls tb rest).err⟩ := by
          simp [execToolCalls, htb, hinv]
        rw [hstep] at hm
        simp at hm
        rcases hm with h | h
        · subst h; rfl
        · exact ih m h

/-- Each turn only appends to the history, and never appends a
SystemMessage. -/
theorem handleTurn_append (s : AppState) (u : String) :
    ∃ tail, (handleTurn s u).state.history = s.history ++ tail ∧
      ∀ m ∈ tail, isSystemMsg m = false := by
  cases hm : s.llm_with_tools (s.history ++ [Message.human u]) with
  | error e =>
    rw [handleTurn_eq_error s u e hm]
    exact ⟨[Message.human u], rfl, by simp [isSystemMsg]⟩
  | ok r =>
    by_cases hc : r.tool_calls = []
    · rw [handleTurn_eq_plain s u r hm hc]
      exact ⟨[Message.human u, Message.ai r], rfl, by simp [isSystemMsg]⟩
    · cases herr : (execToolCalls s.tool_by_name r.tool_calls).err with
      | some e =>
        rw [handleTurn_eq_toolerr s u r e hm herr]
        refine ⟨[Message.human u, Message.ai r] ++
          (execToolCalls s.tool_by_name r.tool_calls).msgs, by simp, ?_⟩
        intro m hmem
        simp at hmem
        rcases hmem with h | h | h
        · subst h; rfl
        · subst h; rfl
        · exact execToolCalls_msgs_not_system _ _ m h
      | none =>
        rw [handleTurn_eq_secondpass s u r hm hc herr]
        unfold secondModelCall
        cases h2 : s.llm (s.history ++ [Message.human u, Message.ai r] ++
            (execToolCalls s.tool_by_name r.tool_calls).msgs) with
        | error e =>
          refine ⟨[Message.human u, Message.ai r] ++
            (execToolCalls s.tool_by_name r.tool_calls).msgs, by simp, ?_⟩
          intro m hmem
          simp at hmem
          rcases hmem with h | h | h
          · subst h; rfl
          · subst h; rfl
          · exact execToolCalls_msgs_not_system _ _ m h
        | ok r2 =>
          refine ⟨[Message.human u, Message.ai r] ++
            (execToolCalls s.tool_by_name r.tool_calls).msgs ++
              [Message.ai r2], by simp, ?_⟩
          intro m hmem
          simp at hmem
          rcases hmem with h | h | h | h
          · subst h; rfl
          · subst h; rfl
          · exact execToolCalls_msgs_not_system _ _ m h
          · subst h; rfl

/-- Sessions compose by concatenating their inputs. -/
theorem runSession_append (s : AppState) (as bs : List String) :
    runSession s (as ++ bs) = runSession (runSession s as) bs := by
  induction as generalizing s with
  | nil => rfl
  | cons a t ih =>
    simp only [List.cons_append, runSession]
    exact ih _

/-- The system-message invariant is preserved by any number of turns. -/
theorem runSession_invariant (inputs : List String) :
    ∀ s : AppState, s.history.head? = some (.system SYSTEM_PROMPT) →
      s.history.countP isSystemMsg = 1 →
      (runSession s inputs).history.head? = some (.system SYSTEM_PROMPT) ∧
      (runSession s inputs).history.countP isSystemMsg = 1 := by
  induction inputs with
  | nil => exact fun s h1 h2 => ⟨h1, h2⟩
  | cons u us ih =>
    intro s h1 h2
    obtain ⟨tail, ht, hns⟩ := handleTurn_append s u
    have htc : tail.countP isSystemMsg = 0 := by
      rw [List.countP_eq_zero]
      intro m hm
      rw [hns m hm]
      simp
    simp only [runSession]
    apply ih
    · cases hh : s.history with
      | nil => rw [hh] at h1; simp at h1
      | cons a l =>
        rw [hh] at h1
        rw [ht, hh]
        simpa using h1
    · rw [ht, List.countP_append, htc, h2]

/-- A tool that returns a fixed string, for concrete scenarios. -/
def echoTool : Tool := ⟨"echo", fun _ => .ok (.str "ok")⟩

/-- The expense-lookup tool of the spec scenario. -/
def getExpensesTool : Tool :=
  ⟨"getExpenses", fun _ => .ok (.arr [.obj [("amount", .num 12)]])⟩

/-- A request for a tool name no tool carries. -/
def ghostCall : ToolCallRequest := ⟨"t1", "ghost", .structured []⟩

/-- A state whose first model pass requests only the unknown tool. -/
def ghostState : AppState :=
  { history := [Message.system SYSTEM_PROMPT]
    tool_by_name := fun _ => none
    tools := []
    llm := fun _ => .ok ⟨"done", []⟩
    llm_with_tools := fun _ => .ok ⟨"", [ghostCall]⟩ }

/-- A state whose first model pass requests two successful echo calls. -/
def twoCallsState : AppState :=
  { history := [Message.system SYSTEM_PROMPT]
    tool_by_name := fun n => if n == "echo" then some echoTool else none
    tools := [echoTool]
    llm := fun _ => .ok ⟨"done", []⟩
    llm_with_tools := fun _ =>
      .ok ⟨"", [⟨"t1", "echo", .structured []⟩, ⟨"t2", "echo", .raw "x"⟩]⟩ }

/-- A state whose batch has a successful call followed by an unknown one. -/
def partialState : AppState :=
  { history := [Message.system SYSTEM_PROMPT]
    tool_by_name := fun n => if n == "echo" then some echoTool else none
    tools := [echoTool]
    llm := fun _ => .ok ⟨"done", []⟩
    llm_with_tools := fun _ =>
      .ok ⟨"", [⟨"t1", "echo", .structured []⟩,
        ⟨"t2", "ghost", .structured []⟩]⟩ }

/-- C1 counterexample: with a single request for the unregistered tool
"ghost", the turn aborts with the lookup `KeyError`: no ToolResultTurn is
produced for the request, the batch does not continue, and no answer is
displayed — refuting the claim that the error is converted into a
ToolResultTurn. -/
theorem unknownTool_aborts_cex :
    (handleTurn ghostState "hi").err = some (.keyError "ghost") ∧
    (handleTurn ghostState "hi").state.history =
      [Message.system SYSTEM_PROMPT, Message.human "hi",
        Message.ai ⟨"", [ghostCall]⟩] ∧
    toolIds (handleTurn ghostState "hi").state.history = [] ∧
    (handleTurn ghostState "hi").displayed = none :=
  ⟨rfl, rfl, rfl, rfl⟩

/-- C1 (amended): an unknown tool name raises the dictionary `KeyError` and
a failing invocation propagates its exception; either aborts the turn: no
ToolResultTurn is produced for the failing request, the requests after it
are not executed, the results already produced stay in history, and nothing
is displayed. -/
theorem toolFailure_aborts_turn :
    (∀ (tb : String → Option Tool) (tc : ToolCallRequest)
        (rest : List ToolCallRequest), tb tc.name = none →
      execToolCalls tb (tc :: rest) = ⟨[], [], some (.keyError tc.name)⟩) ∧
    (∀ (tb : String → Option Tool) (tc : ToolCallRequest)
        (rest : List ToolCallRequest) (tool : Tool) (e : String),
      tb tc.name = some tool → tool.ainvoke tc.args = .error e →
      execToolCalls tb (tc :: rest) =
        ⟨[], [(tc.name, tc.args)], some (.toolError e)⟩) ∧
    (∀ (s : AppState) (u : String) (r : AIMessage) (e : TurnError),
      s.llm_with_tools (s.history ++ [Message.human u]) = .ok r →
      (execToolCalls s.tool_by_name r.tool_calls).err = some e →
      (handleTurn s u).err = some e ∧ (handleTurn s u).displayed = none ∧
      (handleTurn s u).state.history = s.history ++ [Message.human u,
        Message.ai r] ++
          (execToolCalls s.tool_by_name r.tool_calls).msgs) := by
  refine ⟨execToolCalls_keyError, execToolCalls_toolError, ?_⟩
  intro s u r e hm herr
  rw [handleTurn_eq_toolerr s u r e hm herr]
  exact ⟨rfl, rfl, rfl⟩

/-- C1 witness: the amended statement evaluated on the ghost scenario. -/
theorem toolFailure_aborts_turn_witness :
    execToolCalls (fun _ => none) [ghostCall] =
      ⟨[], [], some (.keyError "ghost")⟩ ∧
    ((handleTurn ghostState "hi").err = some (.keyError "ghost") ∧
      (handleTurn ghostState "hi").displayed = none ∧
      (handleTurn ghostState "hi").state.history =
        ghostState.history ++ [Message.human "hi",
          Message.ai ⟨"", [ghostCall]⟩] ++
            (execToolCalls ghostState.tool_by_name
              (⟨"", [ghostCall]⟩ : AIMessage).tool_calls).msgs) :=
  ⟨toolFailure_aborts_turn.1 (fun _ => none) ghostCall [] rfl,
   toolFailure_aborts_turn.2.2 ghostState "hi" ⟨"", [ghostCall]⟩
     (.keyError "ghost") rfl rfl⟩

/-- C2 counterexample: a batch of two requests in which the second names an
unknown tool appends only one ToolResultTurn, not two, and the second model
call is never made. -/
theorem one_result_per_request_cex :
    (⟨"", [⟨"t1", "echo", ToolArgs.structured []⟩,
        ⟨"t2", "ghost", ToolArgs.structured []⟩]⟩ :
      AIMessage).tool_calls.length = 2 ∧
    toolIds (handleTurn partialState "hi").state.history = ["t1"] ∧
    (handleTurn partialState "hi").displayed = none :=
  ⟨rfl, rfl, rfl⟩

/-- C2 (amended): when every request of the batch resolves to a known tool
and every invocation succeeds, the turn appends exactly N ToolResultTurns —
one per request, carrying the request ids in order — and the second model
call is invoked on the history that already contains all of them. -/
theorem allSuccess_results_before_secondpass (s : AppState) (u : String)
    (r : AIMessage)
    (h : s.llm_with_tools (s.history ++ [Message.human u]) = .ok r)
    (hne : r.tool_calls ≠ [])
    (herr : (execToolCalls s.tool_by_name r.tool_calls).err = none) :
    (execToolCalls s.tool_by_name r.tool_calls).msgs.length =
      r.tool_calls.length ∧
    toolIds (execToolCalls s.tool_by_name r.tool_calls).msgs =
      r.tool_calls.map ToolCallRequest.id ∧
    handleTurn s u =
      secondModelCall s
        (s.history ++ [Message.human u, Message.ai r] ++
          (execToolCalls s.tool_by_name r.tool_calls).msgs)
        (execToolCalls s.tool_by_name r.tool_calls).invocations := by
  obtain ⟨h1, h2⟩ := execToolCalls_ok_shape s.tool_by_name r.tool_calls herr
  exact ⟨h1, h2, handleTurn_eq_secondpass s u r h hne herr⟩

/-- C2 witness: the amended statement evaluated on a two-call batch. -/
theorem allSuccess_results_before_secondpass_witness :
    (execToolCalls twoCallsState.tool_by_name
        (⟨"", [⟨"t1", "echo", ToolArgs.structured []⟩,
          ⟨"t2", "echo", ToolArgs.raw "x"⟩]⟩ :
            AIMessage).tool_calls).msgs.length =
      (⟨"", [⟨"t1", "echo", ToolArgs.structured []⟩,
        ⟨"t2", "echo", ToolArgs.raw "x"⟩]⟩ :
          AIMessage).tool_calls.length ∧
    toolIds (execToolCalls twoCallsState.tool_by_name
        (⟨"", [⟨"t1", "echo", ToolArgs.structured []⟩,
          ⟨"t2", "echo", ToolArgs.raw "x"⟩]⟩ :
            AIMessage).tool_calls).msgs =
      (⟨"", [⟨"t1", "echo", ToolArgs.structured []⟩,
        ⟨"t2", "echo", ToolArgs.raw "x"⟩]⟩ :
          AIMessage).tool_calls.map ToolCallRequest.id ∧
    handleTurn twoCallsState "hi" =
      secondModelCall twoCallsState
        (twoCallsState.history ++ [Message.human "hi",
          Message.ai ⟨"", [⟨"t1", "echo", ToolArgs.structured []⟩,
            ⟨"t2", "echo", ToolArgs.raw "x"⟩]⟩] ++
          (execToolCalls twoCallsState.tool_by_name
            (⟨"", [⟨"t1", "echo", ToolArgs.structured []⟩,
              ⟨"t2", "echo", ToolArgs.raw "x"⟩]⟩ :
                AIMessage).tool_calls).msgs)
        (execToolCalls twoCallsState.tool_by_name
          (⟨"", [⟨"t1", "echo", ToolArgs.structured []⟩,
            ⟨"t2", "echo", ToolArgs.raw "x"⟩]⟩ :
              AIMessage).tool_calls).invocations :=
  allSuccess_results_before_secondpass twoCallsState "hi"
    ⟨"", [⟨"t1", "echo", ToolArgs.structured []⟩,
      ⟨"t2", "echo", ToolArgs.raw "x"⟩]⟩ rfl (by simp) rfl

/-- A state whose model errors on the first turn and answers on the next. -/
def flakyState : AppState :=
  { history := [Message.system SYSTEM_PROMPT]
    tool_by_name := fun _ => none
    tools := []
    llm := fun _ => .ok ⟨"done", []⟩
    llm_with_tools := fun h =>
      match h with
      | [_, _] => .error "quota"
      | _ => .ok ⟨"recovered", []⟩ }

/-- C3: if the first model call of a turn raises, the turn aborts with the
`HumanMessage` already in history, no AIMessage and no ToolMessage appended
and nothing displayed; a subsequent user message against the retained
history is then processed normally. -/
theorem modelError_firstPass_retains_history (s : AppState) (u : String)
    (e : String)
    (h : s.llm_with_tools (s.history ++ [Message.human u]) = .error e) :
    (handleTurn s u).state.history = s.history ++ [Message.human u] ∧
    (handleTurn s u).err = some (.modelError e) ∧
    (handleTurn s u).displayed = none ∧
    ∀ u2 r2, s.llm_with_tools ((s.history ++ [Message.human u]) ++
        [Message.human u2]) = .ok r2 → r2.tool_calls = [] →
      handleTurn (handleTurn s u).state u2 =
        ⟨{ (handleTurn s u).state with history :=
            (s.history ++ [Message.human u]) ++
              [Message.human u2, Message.ai r2] },
          some r2.content, [], none⟩ := by
  rw [handleTurn_eq_error s u e h]
  refine ⟨rfl, rfl, rfl, ?_⟩
  intro u2 r2 h2 hnil
  rw [handleTurn_eq_plain _ u2 r2 h2 hnil]

/-- C3 witness: the statement evaluated on a model that hits its quota on
the first turn and recovers on the next. -/
theorem modelError_firstPass_retains_history_witness :
    (handleTurn flakyState "hi").state.history =
      flakyState.history ++ [Message.human "hi"] ∧
    handleTurn (handleTurn flakyState "hi").state "again" =
      ⟨{ (handleTurn flakyState "hi").state with history :=
          (flakyState.history ++ [Message.human "hi"]) ++
            [Message.human "again", Message.ai ⟨"recovered", []⟩] },
        some "recovered", [], none⟩ :=
  ⟨(modelError_firstPass_retains_history flakyState "hi" "quota" rfl).1,
   (modelError_firstPass_retains_history flakyState "hi" "quota" rfl).2.2.2
     "again" ⟨"recovered", []⟩ rfl rfl⟩

/-- A state whose second pass tries to request a further tool call. -/
def sneakyState : AppState :=
  { history := [Message.system SYSTEM_PROMPT]
    tool_by_name := fun n => if n == "echo" then some echoTool else none
    tools := [echoTool]
    llm := fun _ => .ok ⟨"sneaky", [⟨"t9", "echo", .structured []⟩]⟩
    llm_with_tools := fun _ => .ok ⟨"", [⟨"t1", "echo", .structured []⟩]⟩ }

/-- C4: after the second model pass no tool is ever invoked, whatever the
second response contains: the turn's invocations are exactly those of the
first batch, the second response is appended as the final answer verbatim,
and the loop does not repeat. -/
theorem secondPass_never_executes_tools (s : AppState) (u : String)
    (r r2 : AIMessage)
    (h1 : s.llm_with_tools (s.history ++ [Message.human u]) = .ok r)
    (hne : r.tool_calls ≠ [])
    (hex : (execToolCalls s.tool_by_name r.tool_calls).err = none)
    (h2 : s.llm (s.history ++ [Message.human u, Message.ai r] ++
      (execToolCalls s.tool_by_name r.tool_calls).msgs) = .ok r2) :
    (handleTurn s u).invocations =
      (execToolCalls s.tool_by_name r.tool_calls).invocations ∧
    (handleTurn s u).state.history =
      s.history ++ [Message.human u, Message.ai r] ++
        (execToolCalls s.tool_by_name r.tool_calls).msgs ++
          [Message.ai r2] ∧
    (handleTurn s u).displayed = some r2.content ∧
    (handleTurn s u).err = none := by
  rw [handleTurn_eq_secondpass s u r h1 hne hex]
  unfold secondModelCall
  rw [h2]
  exact ⟨rfl, rfl, rfl, rfl⟩

/-- C4 witness: the statement evaluated on a crafted second response that
contains a tool-call request; only the first batch's single echo call is
invoked. -/
theorem secondPass_never_executes_tools_witness :
    (handleTurn sneakyState "hi").invocations =
      (execToolCalls sneakyState.tool_by_name
        (⟨"", [⟨"t1", "echo", ToolArgs.structured []⟩]⟩ :
          AIMessage).tool_calls).invocations ∧
    (handleTurn sneakyState "hi").state.history =
      sneakyState.history ++ [Message.human "hi",
        Message.ai ⟨"", [⟨"t1", "echo", ToolArgs.structured []⟩]⟩] ++
        (execToolCalls sneakyState.tool_by_name
          (⟨"", [⟨"t1", "echo", ToolArgs.structured []⟩]⟩ :
            AIMessage).tool_calls).msgs ++
          [Message.ai ⟨"sneaky", [⟨"t9", "echo", ToolArgs.structured []⟩]⟩] ∧
    (handleTurn sneakyState "hi").displayed = some "sneaky" ∧
    (handleTurn sneakyState "hi").err = none :=
  secondPass_never_executes_tools sneakyState "hi"
    ⟨"", [⟨"t1", "echo", ToolArgs.structured []⟩]⟩
    ⟨"sneaky", [⟨"t9", "echo", ToolArgs.structured []⟩]⟩
    rfl (by simp) rfl rfl

/-- The raw text blob used to refute the argument-parsing claim. -/
def rawArgText : String := "\x7b\"category\": \"coffee\"\x7d"

/-- C5 counterexample: a raw text blob that parses as a structured mapping
is nonetheless passed to the tool unchanged — no parse is attempted. -/
theorem args_not_parsed_cex :
    json.loads rawArgText =
      some (.obj [("category", JsonValue.str "coffee")]) ∧
    (execToolCalls (fun n => if n == "echo" then some echoTool else none)
      [⟨"t1", "echo", ToolArgs.raw rawArgText⟩]).invocations =
        [("echo", ToolArgs.raw rawArgText)] ∧
    ToolArgs.raw rawArgText ≠
      ToolArgs.structured [("category", JsonValue.str "coffee")] :=
  ⟨rfl, rfl, fun h => ToolArgs.noConfusion h⟩

/-- C5 (amended): the executor performs no parsing of arguments: each
invocation passes its request's arguments to the tool exactly as they
arrived, whether structured mapping or raw text; the invocation list is the
initial segment of the batch's (name, argument) pairs that ran before any
exception. -/
theorem executor_passes_args_verbatim (tb : String → Option Tool)
    (tcs : List ToolCallRequest) :
    ∃ k, (execToolCalls tb tcs).invocations =
      (tcs.map fun tc => (tc.name, tc.args)).take k :=
  execToolCalls_inv_take tb tcs

/-- The tool-call request of the spec's coffee scenario. -/
def coffeeRequest : ToolCallRequest :=
  ⟨"t1", "getExpenses", .structured [("category", .str "coffee")]⟩

/-- The session state of the spec's coffee scenario. -/
def coffeeState : AppState :=
  { history := [Message.system SYSTEM_PROMPT]
    tool_by_name := fun n =>
      if n == "getExpenses" then some getExpensesTool else none
    tools := [getExpensesTool]
    llm := fun _ => .ok ⟨"You spent $12.50 on coffee.", []⟩
    llm_with_tools := fun _ => .ok ⟨"", [coffeeRequest]⟩ }

/-- A state whose first pass answers directly without tools. -/
def plainState : AppState :=
  { history := [Message.system SYSTEM_PROMPT]
    tool_by_name := fun _ => none
    tools := []
    llm := fun _ => .ok ⟨"done", []⟩
    llm_with_tools := fun _ => .ok ⟨"hello!", []⟩ }

/-- C6: a first pass without tool-call requests ends the turn with its own
text as the answer; a turn with exactly one successful tool call exposes
the second pass's text and leaves a five-entry history: System, User,
Assistant-with-call, ToolResult, final Assistant. -/
theorem final_answer_surfacing :
    (∀ (s : AppState) (u : String) (r : AIMessage),
      s.llm_with_tools (s.history ++ [Message.human u]) = .ok r →
      r.tool_calls = [] →
      (handleTurn s u).displayed = some r.content ∧
      (handleTurn s u).err = none ∧
      (handleTurn s u).state.history =
        s.history ++ [Message.human u, Message.ai r]) ∧
    (∀ (s : AppState) (u : String) (r r2 : AIMessage)
        (tc : ToolCallRequest) (tool : Tool) (result : JsonValue),
      s.history = [Message.system SYSTEM_PROMPT] →
      s.llm_with_tools (s.history ++ [Message.human u]) = .ok r →
      r.tool_calls = [tc] →
      s.tool_by_name tc.name = some tool →
      tool.ainvoke tc.args = .ok result →
      s.llm [Message.system SYSTEM_PROMPT, Message.human u, Message.ai r,
        Message.tool tc.id (json.dumps result)] = .ok r2 →
      (handleTurn s u).displayed = some r2.content ∧
      (handleTurn s u).state.history =
        [Message.system SYSTEM_PROMPT, Message.human u, Message.ai r,
          Message.tool tc.id (json.dumps result), Message.ai r2] ∧
      (handleTurn s u).state.history.length = 5) := by
  refine ⟨?_, ?_⟩
  · intro s u r h hempty
    rw [handleTurn_eq_plain s u r h hempty]
    exact ⟨rfl, rfl, rfl⟩
  · intro s u r r2 tc tool result hh h1 hcalls htool hinv h2
    have hexec : execToolCalls s.tool_by_name r.tool_calls =
        ⟨[Message.tool tc.id (json.dumps result)], [(tc.name, tc.args)],
          none⟩ := by
      rw [hcalls]
      simp [execToolCalls, htool, hinv]
    have hne : r.tool_calls ≠ [] := by
      rw [hcalls]
      simp
    rw [handleTurn_eq_secondpass s u r h1 hne (by rw [hexec])]
    rw [hexec]
    unfold secondModelCall
    rw [hh]
    have harg : ([Message.system SYSTEM_PROMPT] ++
        [Message.human u, Message.ai r] ++
          [Message.tool tc.id (json.dumps result)]) =
        [Message.system SYSTEM_PROMPT, Message.human u, Message.ai r,
          Message.tool tc.id (json.dumps result)] := by
      simp
    rw [harg, h2]
    refine ⟨rfl, by simp, by simp⟩

/-- C6 witness: the no-tools answer and the coffee scenario, evaluated. -/
theorem final_answer_surfacing_witness :
    ((handleTurn plainState "hey").displayed = some "hello!" ∧
      (handleTurn plainState "hey").err = none ∧
      (handleTurn plainState "hey").state.history =
        plainState.history ++ [Message.human "hey",
          Message.ai ⟨"hello!", []⟩]) ∧
    ((handleTurn coffeeState "What did I spend on coffee?").displayed =
        some "You spent $12.50 on coffee." ∧
      (handleTurn coffeeState "What did I spend on coffee?").state.history =
        [Message.system SYSTEM_PROMPT,
          Message.human "What did I spend on coffee?",
          Message.ai ⟨"", [coffeeRequest]⟩,
          Message.tool "t1"
            (json.dumps (.arr [.obj [("amount", .num 12)]])),
          Message.ai ⟨"You spent $12.50 on coffee.", []⟩] ∧
      (handleTurn coffeeState
        "What did I spend on coffee?").state.history.length = 5) :=
  ⟨final_answer_surfacing.1 plainState "hey" ⟨"hello!", []⟩ rfl rfl,
   final_answer_surfacing.2 coffeeState "What did I spend on coffee?"
     ⟨"", [coffeeRequest]⟩ ⟨"You spent $12.50 on coffee.", []⟩
     coffeeRequest getExpensesTool (.arr [.obj [("amount", .num 12)]])
     rfl rfl rfl rfl rfl rfl⟩

/-- C7: the ToolMessages the loop appends carry the request ids in request
order — always an initial segment of the batch, and the whole batch when no
invocation fails (the loop is sequential, so completion order cannot differ
from request order). -/
theorem results_in_request_order (tb : String → Option Tool)
    (tcs : List ToolCallRequest) :
    (∃ k, toolIds (execToolCalls tb tcs).msgs =
      (tcs.map ToolCallRequest.id).take k) ∧
    ((execToolCalls tb tcs).err = none →
      toolIds (execToolCalls tb tcs).msgs = tcs.map ToolCallRequest.id) :=
  ⟨execToolCalls_ids_take tb tcs,
   fun h => (execToolCalls_ok_shape tb tcs h).2⟩

/-- C7 witness: both request ids come back, in order, on a two-call batch. -/
theorem results_in_request_order_witness :
    (execToolCalls twoCallsState.tool_by_name
      [⟨"t1", "echo", ToolArgs.structured []⟩,
        ⟨"t2", "echo", ToolArgs.raw "x"⟩]).err = none ∧
    toolIds (execToolCalls twoCallsState.tool_by_name
      [⟨"t1", "echo", ToolArgs.structured []⟩,
        ⟨"t2", "echo", ToolArgs.raw "x"⟩]).msgs =
      [⟨"t1", "echo", ToolArgs.structured []⟩,
        (⟨"t2", "echo", ToolArgs.raw "x"⟩ :
          ToolCallRequest)].map ToolCallRequest.id :=
  ⟨rfl, (results_in_request_order twoCallsState.tool_by_name
    [⟨"t1", "echo", ToolArgs.structured []⟩,
      ⟨"t2", "echo", ToolArgs.raw "x"⟩]).2 rfl⟩

/-- C8: over any session, the history always has the single SystemMessage
seeded at index 0 and is append-only: each further user turn only extends
it. -/
theorem session_history_invariants (tools : List Tool)
    (llm lwt : List Message → Except String AIMessage)
    (inputs : List String) :
    (runSession (initState tools llm lwt) inputs).history.head? =
      some (Message.system SYSTEM_PROMPT) ∧
    (runSession (initState tools llm lwt) inputs).history.countP isSystemMsg
      = 1 ∧
    ∀ u, ∃ tail,
      (runSession (initState tools llm lwt) (inputs ++ [u])).history =
        (runSession (initState tools llm lwt) inputs).history ++ tail := by
  obtain ⟨hhead, hcount⟩ :=
    runSession_invariant inputs (initState tools llm lwt) rfl rfl
  refine ⟨hhead, hcount, ?_⟩
  intro u
  rw [runSession_append]
  simp only [runSession]
  obtain ⟨tail, ht, _⟩ :=
    handleTurn_append (runSession (initState tools llm lwt) inputs) u
  exact ⟨tail, ht⟩

/-- C10: one user turn leaves the tool lookup table and the cached
resources untouched and only appends to the history. -/
theorem handleTurn_frame (s : AppState) (u : String) :
    (handleTurn s u).state.tool_by_name = s.tool_by_name ∧
    (handleTurn s u).state.tools = s.tools ∧
    (handleTurn s u).state.llm = s.llm ∧
    (handleTurn s u).state.llm_with_tools = s.llm_with_tools ∧
    ∃ tail, (handleTurn s u).state.history = s.history ++ tail := by
  cases hm : s.llm_with_tools (s.history ++ [Message.human u]) with
  | error e =>
    rw [handleTurn_eq_error s u e hm]
    exact ⟨rfl, rfl, rfl, rfl, [Message.human u], rfl⟩
  | ok r =>
    by_cases hc : r.tool_calls = []
    · rw [handleTurn_eq_plain s u r hm hc]
      exact ⟨rfl, rfl, rfl, rfl, [Message.human u, Message.ai r], rfl⟩
    · cases herr : (execToolCalls s.tool_by_name r.tool_calls).err with
      | some e =>
        rw [handleTurn_eq_toolerr s u r e hm herr]
        exact ⟨rfl, rfl, rfl, rfl, [Message.human u, Message.ai r] ++
          (execToolCalls s.tool_by_name r.tool_calls).msgs, by simp⟩
      | none =>
        rw [handleTurn_eq_secondpass s u r hm hc herr]
        unfold secondModelCall
        cases h2 : s.llm (s.history ++ [Message.human u, Message.ai r] ++
            (execToolCalls s.tool_by_name r.tool_calls).msgs) with
        | error e =>
          exact ⟨rfl, rfl, rfl, rfl, [Message.human u, Message.ai r] ++
            (execToolCalls s.tool_by_name r.tool_calls).msgs, by simp⟩
        | ok r2 =>
          exact ⟨rfl, rfl, rfl, rfl, [Message.human u, Message.ai r] ++
            (execToolCalls s.tool_by_name r.tool_calls).msgs ++
              [Message.ai r2], by simp⟩

end AniTracker
